import Mathlib

/-!
# Verification of the mcp-as-a-service gateway core

A shallow embedding, in Lean 4, of the parts of the mcp-as-a-service
repository that the specification's claims are about:

* input validation (`validation.ts`): shell-metacharacter screening,
  extra-argument tokenization, remote-server detection, environment
  key/value sanitization;
* package resolution (`packages.ts`): ecosystem detection against the two
  registries, the quality gate, package-name parsing;
* the child-process supervisors (`process-manager.ts`, `mcp-proxy.ts`):
  the concurrency cap, server-id hashing, the idle reaper;
* the Content-Length JSON-RPC framer and streaming parser
  (`src/mcp/jsonrpc.ts`);
* the MCP gateway handshake (`mcp-handler.ts`).

Registry I/O, the process table, and wall-clock time are passed explicitly
(oracles / state values); machine strings are Lean strings, byte streams
are `List Nat` with each element < 256.  JSON numbers are modelled as
integers (the payloads the gateway itself constructs are integral), and
UTF-8 en/decoding is made explicit where the code counts bytes.
-/

namespace MCPService

/-! ## Shared string helpers (JS semantics) -/

/-- The shell metacharacter class of the regex `[;&|` backtick
`$(){}[\]<>'"\\]` used in `validation.ts` (`validateArgs`,
`validatePackageName`): the character codes of
`; & | backtick dollar ( ) { } [ ] < > ' " \\`. -/
def shellMetaCodes : List Nat :=
  [59, 38, 124, 96, 36, 40, 41, 123, 125, 91, 93, 60, 62, 39, 34, 92]

/-- `true` iff the string contains a character of the shell-metacharacter
class, i.e. the regex `[;&|...]<>'"\\]` of `validation.ts` tests positive. -/
def hasShellMeta (s : String) : Bool :=
  s.data.any (fun c => shellMetaCodes.contains c.toNat)

/-- JS whitespace for the purposes of `String.prototype.trim`
(the characters removed by `trim`): space, tab, LF, CR, VT, FF, NBSP,
BOM, and line/paragraph separators. -/
def isJsWhitespace (c : Char) : Bool :=
  [32, 9, 10, 13, 11, 12, 160, 65279, 8232, 8233].contains c.toNat

/-- Truthiness of `arg.trim()` in JS: the trimmed string is nonempty iff
some character is not whitespace. -/
def jsTrimTruthy (s : String) : Bool :=
  s.data.any (fun c => !isJsWhitespace c)

/-- `sub.isPrefixOf (l.drop i)` for some `i`: `l` contains `sub` as a
contiguous sublist.  This is JS `/pattern/.test(s)` for a literal
pattern. -/
def listContainsSub (l sub : List Char) : Bool :=
  (List.range (l.length + 1)).any (fun i => sub.isPrefixOf (l.drop i))

/-- JS `s.includes(sub)` / unanchored regex literal test, on strings. -/
def strContainsSub (s sub : String) : Bool :=
  listContainsSub s.data sub.data

/-- JS `s.split(sep)` for a one-character separator: empty chunks are
kept, the empty string splits to one empty chunk. -/
def splitOnChar (sep : Char) : List Char → List (List Char)
  | [] => [[]]
  | c :: rest =>
    match splitOnChar sep rest with
    | [] => [[]]
    | t :: ts => if c = sep then [] :: t :: ts else (c :: t) :: ts

/-- `splitOnChar` lifted to `String`. -/
def strSplitOnChar (sep : Char) (s : String) : List String :=
  (splitOnChar sep s.data).map (fun l => ⟨l⟩)

/-- JS `s.startsWith(p)` (also the anchored regex `^p`). -/
def strStartsWith (s p : String) : Bool :=
  p.data.isPrefixOf s.data

/-- JS regex `p$` (match at end). -/
def strEndsWith (s p : String) : Bool :=
  p.data.isSuffixOf s.data

/-! ## `validation.ts` -/

/-- `SERVER_CONFIG` from `config.ts`. -/
def maxConcurrentProcesses : Nat := 10

/-- `SERVER_CONFIG.maxPackageNameLength` from `config.ts`. -/
def maxPackageNameLength : Nat := 200

/-- `SERVER_CONFIG.maxParamKeyLength` from `config.ts`. -/
def maxParamKeyLength : Nat := 100

/-- `SERVER_CONFIG.maxParamValueLength` from `config.ts`. -/
def maxParamValueLength : Nat := 1000

/-- `SERVER_CONFIG.maxProcessLifetime` (ms) from `config.ts`. -/
def maxProcessLifetime : Nat := 30 * 60 * 1000

/-- `validateArgs` from `validation.ts`: reject outright on any shell
metacharacter; otherwise split on single spaces, keep tokens whose
`trim()` is truthy, truncate each token to its first 100 characters and
keep at most the first 20 tokens.  Thrown `ValidationError`s are
`Except.error`. -/
def validateArgs (argsString : String) : Except String (List String) :=
  if hasShellMeta argsString then
    Except.error "INVALID_ARGS:contains_dangerous_characters"
  else
    Except.ok (((((splitOnChar ' ' argsString.data).filter
      (fun t => t.any (fun c => !isJsWhitespace c))).map
      (fun t => (⟨t.take 100⟩ : String))).take 20))

/-- `isRemoteServer` from `validation.ts`: the disjunction of the
`urlPatterns` tests — anchored scheme patterns, the unanchored TLD
patterns `.com .org .net .io`, the anchored-at-end `/sse` and `/stdio`
patterns, and the unanchored `mcp-remote` pattern. -/
def isRemoteServer (packageName : String) : Bool :=
  strStartsWith packageName "http://" || strStartsWith packageName "https://" ||
  strStartsWith packageName "ws://" || strStartsWith packageName "wss://" ||
  strContainsSub packageName ".com" || strContainsSub packageName ".org" ||
  strContainsSub packageName ".net" || strContainsSub packageName ".io" ||
  strEndsWith packageName "/sse" || strEndsWith packageName "/stdio" ||
  strContainsSub packageName "mcp-remote"

/-- `sanitizeEnvKey` from `validation.ts`: `null` for empty or over-long
keys; otherwise replace every character outside `[a-zA-Z0-9_]` by an
underscore, uppercase, and require the result to start with `[A-Z_]`. -/
def sanitizeEnvKey (key : String) : Option String :=
  if key.isEmpty || key.length > maxParamKeyLength then none
  else
    let envKey : List Char := key.data.map (fun c =>
      if c.isAlphanum || c = Char.ofNat 95 then c.toUpper else Char.ofNat 95)
    match envKey with
    | [] => none
    | c :: _ => if (65 ≤ c.toNat && c.toNat ≤ 90) || c.toNat = 95
                then some ⟨envKey⟩ else none

/-- `sanitizeEnvValue` from `validation.ts`: non-strings and the empty
string become `""`; strings are truncated to 1000 characters and scrubbed
of the shell-metacharacter class. -/
def sanitizeEnvValue (value : String) : String :=
  ⟨(value.data.take maxParamValueLength).filter
    (fun c => !shellMetaCodes.contains c.toNat)⟩

/-! ## `packages.ts` -/

/-- `ParsedPackage` from `types.ts`. -/
structure ParsedPackage where
  fullName : String
  scope : Option String
  name : String
  version : String
  deriving Repr, DecidableEq

/-- JS `s.lastIndexOf(c)` as an `Option`. -/
def lastIndexOfChar (c : Char) (l : List Char) : Option Nat :=
  ((List.range l.length).filter (fun i => l.getD i (Char.ofNat 0) = c)).getLast?

/-- `parsePackageName` from `packages.ts`: scoped packages are decomposed
by counting the `@`-separated chunks; unscoped packages split at the last
`@` when it is not at position 0; otherwise the version defaults to
`latest`. -/
def parsePackageName (packageName : String) : ParsedPackage :=
  if strStartsWith packageName "@" then
    match strSplitOnChar '@' packageName with
    | [_, body, ver] =>
        { fullName := "@" ++ body
          scope := ((strSplitOnChar '/' body).headD "")
          name := ((strSplitOnChar '/' body).getD 1 "")
          version := ver }
    | [_, body] =>
        { fullName := packageName
          scope := ((strSplitOnChar '/' body).headD "")
          name := ((strSplitOnChar '/' body).getD 1 "")
          version := "latest" }
    | _ => fallbackParse packageName
  else fallbackParse packageName
where
  -- the unscoped path of `parsePackageName`: split at the last `@`
  -- when its index is positive
  fallbackParse (packageName : String) : ParsedPackage :=
    let chars := packageName.data
    match lastIndexOfChar '@' chars with
    | some atIndex =>
      if atIndex > 0 then
        { fullName := ⟨chars.take atIndex⟩
          scope := none
          name := ⟨chars.take atIndex⟩
          version := ⟨chars.drop (atIndex + 1)⟩ }
      else
        { fullName := packageName, scope := none
          name := packageName, version := "latest" }
    | none =>
        { fullName := packageName, scope := none
          name := packageName, version := "latest" }

/-- Registry metadata after the `type-guards.ts` cleaning: only
`name`, `version?`, `description?` survive into `packageData`. -/
structure PackageData where
  name : String
  version : Option String
  description : Option String
  deriving Repr, DecidableEq

/-- A raw PyPI registry record: the cleaned fields plus whether the
package has any release record within the last year.  The extra field is
present in the registry response but is *dropped* by
`validatePyPIPackageInfo`, so the code under test never reads it. -/
structure PyPIRecord where
  data : PackageData
  hasReleaseWithinLastYear : Bool
  deriving Repr, DecidableEq

/-- The outward-I/O environment of `packages.ts`: what each registry
endpoint would answer for a given (base) package name.  `none` models any
non-200 status or network/timeout error. -/
structure RegistryOracle where
  npm : String → Option PackageData
  npmMonthlyDownloads : String → Option Nat
  pypi : String → Option PyPIRecord

/-- `PackageDetectionResult` from `types.ts`. -/
structure PackageDetectionResult where
  type : String
  registry : String
  packageData : PackageData
  deriving Repr, DecidableEq

/-- The base name `detectPackageType` probes the registries with:
`packageName.split('@')[0]`. -/
def detectBaseName (packageName : String) : String :=
  (strSplitOnChar '@' packageName).headD ""

/-- Modelled from the spec: the spec (§4.C, §9) defines the probed name as
the identifier with only its version suffix stripped, the version suffix
being the substring after the last `@` that is not at position 0. -/
def specStripVersion (packageName : String) : String :=
  match (((List.range packageName.data.length).filter
      (fun i => decide (0 < i) &&
        decide (packageName.data.getD i (Char.ofNat 0) = '@'))).getLast?) with
  | some atIndex => ⟨packageName.data.take atIndex⟩
  | none => packageName

/-- `detectPackageType` from `packages.ts`: reject remote-looking names,
then probe NPM with `split('@')[0]`, then PyPI with the same name, else
`PACKAGE_NOT_FOUND`. -/
def detectPackageType (oracle : RegistryOracle) (packageName : String) :
    Except String PackageDetectionResult :=
  if isRemoteServer packageName then
    Except.error "REMOTE_SERVER_NOT_SUPPORTED"
  else
    let basePackageName := detectBaseName packageName
    match oracle.npm basePackageName with
    | some d => Except.ok { type := "npm", registry := "npmjs", packageData := d }
    | none =>
      match oracle.pypi basePackageName with
      | some r => Except.ok { type := "python", registry := "pypi", packageData := r.data }
      | none => Except.error "PACKAGE_NOT_FOUND"

/-- `PackageValidationResult` from `types.ts`. -/
structure PackageValidationResult where
  valid : Bool
  type : String
  reason : Option String := none
  error : Option String := none
  deriving Repr, DecidableEq

/-- `validatePackage` from `packages.ts`: consult the cache; detect the
ecosystem; for NPM require ≥ 100 downloads last month; for Python take
`isValid = Boolean(description && description.length > 10)` (the code
comments note that release recency is *not* checked against the cleaned
data); cache and return the verdict.  Registry failures map to the error
results of the `catch` block. -/
def validatePackage (oracle : RegistryOracle)
    (downloadCache : List (String × PackageValidationResult))
    (packageName : String) :
    PackageValidationResult × List (String × PackageValidationResult) :=
  match (downloadCache.lookup packageName) with
  | some cached => (cached, downloadCache)
  | none =>
    match detectPackageType oracle packageName with
    | Except.error e =>
      if e = "REMOTE_SERVER_NOT_SUPPORTED" then
        ({ valid := false, type := "remote", error := some e }, downloadCache)
      else
        ({ valid := false, type := "unknown", error := some e }, downloadCache)
    | Except.ok det =>
      let result : PackageValidationResult :=
        if det.type = "npm" then
          match oracle.npmMonthlyDownloads (detectBaseName packageName) with
          | some downloads =>
            { valid := downloads ≥ 100, type := "npm"
              reason := some (toString downloads ++ " downloads/month (minimum 100 required)") }
          | none => { valid := false, type := "npm", reason := some "" }
        else
          let hasDescription :=
            match det.packageData.description with
            | some d => d.length > 10
            | none => false
          { valid := hasDescription, type := "python"
            reason := some ("description=" ++ toString hasDescription) }
      (result, (packageName, result) :: downloadCache)

/-! ## Supporting lemmas -/

theorem listContainsSub_of_decomp (a sub b : List Char) :
    listContainsSub (a ++ sub ++ b) sub = true := by
  unfold listContainsSub
  rw [List.any_eq_true]
  refine ⟨a.length, ?_, ?_⟩
  · rw [List.mem_range]
    simp only [List.length_append]
    omega
  · rw [List.append_assoc, List.drop_left]
    exact List.isPrefixOf_iff_prefix.mpr ⟨b, rfl⟩

theorem splitOnChar_ne_nil (sep : Char) (l : List Char) : splitOnChar sep l ≠ [] := by
  cases l with
  | nil => simp [splitOnChar]
  | cons c rest =>
    unfold splitOnChar
    cases h : splitOnChar sep rest with
    | nil => simp
    | cons t ts => dsimp only; split <;> simp

/-- An oracle under which every registry probe fails. -/
def emptyOracle : RegistryOracle :=
  { npm := fun _ => none, npmMonthlyDownloads := fun _ => none, pypi := fun _ => none }

/-! ## Claim C9 — `validateArgs` tokenization -/

/-- C9 counterexample: on the input consisting of a single tab character,
`validateArgs` does not throw (no shell metacharacter) and returns `[]`,
although the claim mandates the list of *non-empty* space-separated tokens,
which is `["\t"]`: the code also drops whitespace-only tokens. -/
theorem validateArgs_claim_counterexample :
    hasShellMeta "\t" = false ∧
    ((splitOnChar ' ' "\t".data).filter (fun t => t ≠ [])).map
      (fun t => ((⟨t.take 100⟩ : String))) = ["\t"] ∧
    validateArgs "\t" = Except.ok [] ∧
    ([] : List String) ≠ ["\t"] := by
  refine ⟨by decide, by decide, rfl, by decide⟩

/-- C9 (amended): `validateArgs` either throws `INVALID_ARGS` as soon as
the input contains a shell metacharacter — before any splitting or
truncation — or returns the space-separated tokens that contain at least
one non-whitespace character, each truncated to its first 100 characters,
with at most the first 20 tokens kept. -/
theorem validateArgs_tokenization (s : String) :
    (hasShellMeta s = true ∧
      validateArgs s = Except.error "INVALID_ARGS:contains_dangerous_characters") ∨
    (hasShellMeta s = false ∧
      validateArgs s = Except.ok ((((splitOnChar ' ' s.data).filter
        (fun t => decide (∃ c ∈ t, isJsWhitespace c = false))).map
        (fun t => (⟨t.take 100⟩ : String))).take 20) ∧
      (∀ ts, validateArgs s = Except.ok ts →
        ts.length ≤ 20 ∧ ∀ t ∈ ts, t.length ≤ 100)) := by
  cases h : hasShellMeta s with
  | true =>
    left
    exact ⟨rfl, by simp [validateArgs, h]⟩
  | false =>
    right
    refine ⟨rfl, ?_, ?_⟩
    · simp only [validateArgs, h, Bool.false_eq_true, if_false]
      have hfil : List.filter (fun t => t.any fun c => !isJsWhitespace c)
            (splitOnChar ' ' s.data) =
          List.filter (fun t => decide (∃ c ∈ t, isJsWhitespace c = false))
            (splitOnChar ' ' s.data) := by
        apply List.filter_congr
        intro t _
        cases hb : (t.any fun c => !isJsWhitespace c) with
        | true =>
          rw [List.any_eq_true] at hb
          obtain ⟨c, hc, hcw⟩ := hb
          exact (decide_eq_true ⟨c, hc, by simpa using hcw⟩).symm
        | false =>
          have hno : ¬ ∃ c ∈ t, isJsWhitespace c = false := by
            rintro ⟨c, hc, hcw⟩
            have hany : (t.any fun c => !isJsWhitespace c) = true :=
              List.any_eq_true.mpr ⟨c, hc, show (!isJsWhitespace c) = true by rw [hcw]; rfl⟩
            rw [hb] at hany
            exact Bool.false_ne_true hany
          exact (decide_eq_false hno).symm
      rw [hfil]
    · intro ts hts
      simp only [validateArgs, h, Bool.false_eq_true, if_false, Except.ok.injEq] at hts
      subst hts
      constructor
      · exact List.length_take_le 20 _
      · intro t ht
        have ht' := List.mem_of_mem_take ht
        obtain ⟨u, _, rfl⟩ := List.mem_map.mp ht'
        show (u.take 100).length ≤ 100
        exact List.length_take_le 100 u

/-! ## Claim C10 — remote-server detection by substring -/

/-- C10: any package identifier containing `.com`, `.org`, `.net`, `.io`
or `mcp-remote` anywhere is classified as a remote server, and the
resolver then rejects it with `REMOTE_SERVER_NOT_SUPPORTED` before any
registry probe (under every oracle). -/
theorem isRemoteServer_substring_rejection (s : String)
    (h : (∃ a b, s.data = a ++ ".com".data ++ b) ∨
         (∃ a b, s.data = a ++ ".org".data ++ b) ∨
         (∃ a b, s.data = a ++ ".net".data ++ b) ∨
         (∃ a b, s.data = a ++ ".io".data ++ b) ∨
         (∃ a b, s.data = a ++ "mcp-remote".data ++ b)) :
    isRemoteServer s = true ∧
    ∀ oracle : RegistryOracle,
      detectPackageType oracle s = Except.error "REMOTE_SERVER_NOT_SUPPORTED" := by
  have hrem : isRemoteServer s = true := by
    unfold isRemoteServer strContainsSub
    rcases h with ⟨a, b, hd⟩ | ⟨a, b, hd⟩ | ⟨a, b, hd⟩ | ⟨a, b, hd⟩ | ⟨a, b, hd⟩ <;>
      rw [hd, listContainsSub_of_decomp] <;> simp
  refine ⟨hrem, fun oracle => ?_⟩
  unfold detectPackageType
  rw [hrem]
  simp

/-- C10 witness: the plain package name `socket.io` is rejected as a
remote server. -/
theorem isRemoteServer_substring_rejection_witness :
    isRemoteServer "socket.io" = true ∧
    detectPackageType emptyOracle "socket.io" = Except.error "REMOTE_SERVER_NOT_SUPPORTED" := by
  have h := isRemoteServer_substring_rejection "socket.io"
    (Or.inr (Or.inr (Or.inr (Or.inl ⟨"socket".data, [], by decide⟩))))
  exact ⟨h.1, h.2 emptyOracle⟩

/-! ## Claim C3 — Python quality gate -/

/-- A PyPI registry record for a package with a long description but no
release within the last year. -/
def stalePyRecord : PyPIRecord :=
  { data := { name := "oldpkg", version := some "1.0"
              description := some "a long unmaintained package description" }
    hasReleaseWithinLastYear := false }

/-- An oracle whose NPM probe fails and whose PyPI probe answers with
`stalePyRecord` for the name `oldpkg`. -/
def stalePyOracle : RegistryOracle :=
  { npm := fun _ => none
    npmMonthlyDownloads := fun _ => none
    pypi := fun n => if n = "oldpkg" then some stalePyRecord else none }

/-- C3 counterexample: a Python package whose description is longer than
10 characters but which has had no release within the last year *passes*
`validatePackage` — the code never consults release recency, so the
claimed conjunction does not hold. -/
theorem validatePackage_python_counterexample :
    stalePyOracle.pypi "oldpkg" = some stalePyRecord ∧
    stalePyRecord.hasReleaseWithinLastYear = false ∧
    stalePyRecord.data.description = some "a long unmaintained package description" ∧
    ("a long unmaintained package description" : String).length > 10 ∧
    (validatePackage stalePyOracle [] "oldpkg").1.valid = true := by
  refine ⟨rfl, rfl, rfl, by decide, by decide⟩

/-- C3 (amended): for every Python-ecosystem package (NPM probe fails,
PyPI probe answers, cache miss, not remote-looking), `validatePackage`
passes the package iff its description is longer than 10 characters;
release recency is not consulted — the verdict is the same whatever the
registry's release history says. -/
theorem validatePackage_python_gate (oracle : RegistryOracle)
    (cache : List (String × PackageValidationResult)) (pkg : String) (rec : PyPIRecord)
    (hcache : cache.lookup pkg = none)
    (hrem : isRemoteServer pkg = false)
    (hnpm : oracle.npm (detectBaseName pkg) = none)
    (hpypi : oracle.pypi (detectBaseName pkg) = some rec) :
    ((validatePackage oracle cache pkg).1.valid = true ↔
      ∃ d, rec.data.description = some d ∧ d.length > 10) := by
  unfold validatePackage
  rw [hcache]
  unfold detectPackageType
  rw [hrem]
  simp only [Bool.false_eq_true, if_false, hnpm, hpypi]
  constructor
  · intro hv
    cases hd : rec.data.description with
    | none => rw [hd] at hv; simp at hv
    | some d =>
      rw [hd] at hv
      refine ⟨d, rfl, ?_⟩
      by_cases hlen : d.length > 10
      · exact hlen
      · simp only [hlen] at hv; simp at hv
  · rintro ⟨d, hd, hlen⟩
    rw [hd]
    simp [hlen]

/-- C3 witness: the amended gate evaluated at the stale package. -/
theorem validatePackage_python_gate_witness :
    (validatePackage stalePyOracle [] "oldpkg").1.valid = true :=
  (validatePackage_python_gate stalePyOracle [] "oldpkg" stalePyRecord
    rfl (by decide) rfl rfl).mpr
    ⟨"a long unmaintained package description", rfl, by decide⟩

/-! ## Claim C4 — scoped identifiers and the registry probe -/

/-- C4 (code bug): for every scoped identifier (leading `@`, no version
suffix), the name `detectPackageType` actually probes the registries with
is `packageName.split('@')[0] = ""` — the empty string — while the spec
mandates the version-stripped identifier, which is the full scoped name.
Under every oracle that has no entry for the empty name, the scoped
package therefore resolves to `PACKAGE_NOT_FOUND` without its own name
ever being probed. -/
theorem detectPackageType_scoped_probe_bug (s : String)
    (h1 : strStartsWith s "@" = true)
    (h2 : ∀ i ∈ List.range s.data.length, 0 < i → s.data.getD i (Char.ofNat 0) ≠ '@') :
    detectBaseName s = "" ∧
    specStripVersion s = s ∧
    (∀ oracle : RegistryOracle, isRemoteServer s = false → oracle.npm "" = none →
      oracle.pypi "" = none →
      detectPackageType oracle s = Except.error "PACKAGE_NOT_FOUND") := by
  obtain ⟨rest, hrest⟩ : ∃ rest, s.data = '@' :: rest := by
    unfold strStartsWith at h1
    have := List.isPrefixOf_iff_prefix.mp h1
    obtain ⟨t, ht⟩ := this
    exact ⟨t, ht.symm⟩
  have hbase : detectBaseName s = "" := by
    unfold detectBaseName strSplitOnChar
    rw [hrest]
    show (((splitOnChar '@' ('@' :: rest)).map (fun l => (⟨l⟩ : String))).headD "") = ""
    unfold splitOnChar
    cases hsp : splitOnChar '@' rest with
    | nil => exact absurd hsp (splitOnChar_ne_nil '@' rest)
    | cons t ts => simp
  refine ⟨hbase, ?_, ?_⟩
  · unfold specStripVersion
    have hfil : ((List.range s.data.length).filter
        (fun i => decide (0 < i) && decide (s.data.getD i (Char.ofNat 0) = '@'))) = [] := by
      apply List.filter_eq_nil_iff.mpr
      intro i hi
      simp only [Bool.and_eq_true, decide_eq_true_eq, not_and]
      intro h0
      exact h2 i hi h0
    rw [hfil]
    rfl
  · intro oracle hrem hn hp
    unfold detectPackageType
    rw [hrem]
    simp only [Bool.false_eq_true, if_false]
    rw [hbase, hn, hp]

/-- C4 witness: the scoped identifier from the repository's own README
examples is probed as the empty string and cannot be found, although per
the spec the probed name is the identifier itself. -/
theorem detectPackageType_scoped_probe_bug_witness :
    detectBaseName "@supabase/mcp-server-supabase" = "" ∧
    specStripVersion "@supabase/mcp-server-supabase" = "@supabase/mcp-server-supabase" ∧
    detectPackageType emptyOracle "@supabase/mcp-server-supabase" =
      Except.error "PACKAGE_NOT_FOUND" := by
  have h := detectPackageType_scoped_probe_bug "@supabase/mcp-server-supabase"
    (by decide) (by decide)
  exact ⟨h.1, h.2.1, h.2.2 emptyOracle (by decide) rfl rfl⟩

/-! ## JSON values and `JSON.stringify`

JSON values as the gateway sees them, with numbers restricted to
integers (every number the gateway itself constructs is integral).
Serialization follows `JSON.stringify`: no whitespace, strings escaped
with `\" \\ \b \t \n \f \r` and `\u00XX` for other control characters,
other characters emitted as UTF-8 bytes. -/

mutual
inductive Json where
  | null : Json
  | bool (b : Bool) : Json
  | num (n : Int) : Json
  | str (s : List Char) : Json
  | arr (elems : JsonArr) : Json
  | obj (members : JsonObj) : Json
  deriving Repr
inductive JsonArr where
  | nil : JsonArr
  | cons (hd : Json) (tl : JsonArr) : JsonArr
  deriving Repr
inductive JsonObj where
  | nil : JsonObj
  | cons (k : List Char) (v : Json) (tl : JsonObj) : JsonObj
  deriving Repr
end

/-- UTF-8 encoding of a Unicode scalar value. -/
def utf8EncodeChar (n : Nat) : List Nat :=
  if n < 128 then [n]
  else if n < 2048 then [192 + n / 64, 128 + n % 64]
  else if n < 65536 then [224 + n / 4096, 128 + (n / 64) % 64, 128 + n % 64]
  else [240 + n / 262144, 128 + (n / 4096) % 64, 128 + (n / 64) % 64, 128 + n % 64]

/-- Lowercase hex digit byte. -/
def hexDigitByte (n : Nat) : Nat :=
  if n < 10 then 48 + n else 87 + n

/-- `JSON.stringify` escaping of one character inside a string literal. -/
def escapeCharBytes (c : Char) : List Nat :=
  if c.toNat = 34 then [92, 34]
  else if c.toNat = 92 then [92, 92]
  else if c.toNat = 8 then [92, 98]
  else if c.toNat = 9 then [92, 116]
  else if c.toNat = 10 then [92, 110]
  else if c.toNat = 12 then [92, 102]
  else if c.toNat = 13 then [92, 114]
  else if c.toNat < 32 then
    [92, 117, 48, 48, hexDigitByte (c.toNat / 16), hexDigitByte (c.toNat % 16)]
  else utf8EncodeChar c.toNat

/-- A serialized JSON string literal: quote, escaped characters, quote. -/
def strLitBytes (s : List Char) : List Nat :=
  34 :: (s.map escapeCharBytes).flatten ++ [34]

/-- Decimal digits of a natural number (fuel-indexed so that it reduces
definitionally). -/
def natDigitsAux : Nat → Nat → List Nat
  | 0, _ => []
  | fuel + 1, n => if n < 10 then [48 + n] else natDigitsAux fuel (n / 10) ++ [48 + n % 10]

/-- Decimal digit bytes of a natural number. -/
def natDigits (n : Nat) : List Nat :=
  natDigitsAux (n + 1) n

/-- Decimal serialization of an integer. -/
def intBytes (n : Int) : List Nat :=
  if n < 0 then 45 :: natDigits n.natAbs else natDigits n.natAbs

mutual
/-- `JSON.stringify` on values, emitting UTF-8 bytes. -/
def stringifyJson : Json → List Nat
  | .null => [110, 117, 108, 108]
  | .bool true => [116, 114, 117, 101]
  | .bool false => [102, 97, 108, 115, 101]
  | .num n => intBytes n
  | .str s => strLitBytes s
  | .arr elems => 91 :: stringifyArr elems ++ [93]
  | .obj members => 123 :: stringifyObj members ++ [125]
/-- comma-separated serialization of array elements. -/
def stringifyArr : JsonArr → List Nat
  | .nil => []
  | .cons x .nil => stringifyJson x
  | .cons x tl => stringifyJson x ++ 44 :: stringifyArr tl
/-- comma-separated serialization of object members. -/
def stringifyObj : JsonObj → List Nat
  | .nil => []
  | .cons k v .nil => strLitBytes k ++ 58 :: stringifyJson v
  | .cons k v tl => strLitBytes k ++ 58 :: stringifyJson v ++ 44 :: stringifyObj tl
end

/-! ## `mcp-proxy.ts`: server ids and the registry -/

/-- One base64 output character (standard alphabet). -/
def base64Char (n : Nat) : Char :=
  if n < 26 then Char.ofNat (65 + n)
  else if n < 52 then Char.ofNat (97 + (n - 26))
  else if n < 62 then Char.ofNat (48 + (n - 52))
  else if n = 62 then Char.ofNat 43
  else Char.ofNat 47

/-- `Buffer.toString('base64')`: standard base64 with `=` padding. -/
def base64Encode : List Nat → List Char
  | [] => []
  | [a] => [base64Char (a / 4), base64Char ((a % 4) * 16), '=', '=']
  | [a, b] => [base64Char (a / 4), base64Char ((a % 4) * 16 + b / 16),
               base64Char ((b % 16) * 4), '=']
  | a :: b :: c :: rest =>
      base64Char (a / 4) :: base64Char ((a % 4) * 16 + b / 16) ::
      base64Char ((b % 16) * 4 + c / 64) :: base64Char (c % 64) :: base64Encode rest

/-- Total lexicographic `≤` on character lists by code point: the order
JS `Array.prototype.sort()` applies to string keys. -/
def lexLe : List Char → List Char → Bool
  | [], _ => true
  | _ :: _, [] => false
  | a :: as, b :: bs =>
    if a.toNat < b.toNat then true
    else if b.toNat < a.toNat then false
    else lexLe as bs

/-- Insert one pair into a key-sorted list. -/
def insertByKey (p : String × String) : List (String × String) → List (String × String)
  | [] => [p]
  | q :: rest => if lexLe p.1.data q.1.data then p :: q :: rest else q :: insertByKey p rest

/-- `Object.keys(params).sort()` applied to the pair list: insertion sort
by key. -/
def sortByKey : List (String × String) → List (String × String)
  | [] => []
  | p :: rest => insertByKey p (sortByKey rest)

/-- The params map as a JSON object in the given pair order. -/
def paramsToJsonObj : List (String × String) → JsonObj
  | [] => JsonObj.nil
  | (k, v) :: rest => JsonObj.cons k.data (Json.str v.data) (paramsToJsonObj rest)

/-- `JSON.stringify(params, Object.keys(params).sort())` from
`MCPProxy.hashParams`: serialize the map with its keys in sorted order. -/
def hashParamsInput (params : List (String × String)) : List Nat :=
  stringifyJson (Json.obj (paramsToJsonObj (sortByKey params)))

/-- `MCPProxy.hashParams`: the first 8 characters of the base64 encoding
of the sorted-key JSON serialization of the params map. -/
def hashParams (params : List (String × String)) : String :=
  ⟨(base64Encode (hashParamsInput params)).take 8⟩

/-- `MCPProxy.computeServerId`. -/
def computeServerId (packageName : String) (params : List (String × String)) : String :=
  packageName ++ "_" ++ hashParams params

/-- The registry entry of `mcp-proxy.ts` (`MCPServerProcess`), with the
child process abstracted to its `killed` flag. -/
structure MCPServerRecord where
  packageName : String
  startTime : Nat
  lastActivity : Nat
  clients : List String
  killed : Bool
  deriving Repr, DecidableEq

/-- The `servers` map of `MCPProxy`, in insertion order. -/
abbrev ProxyRegistry := List (String × MCPServerRecord)

/-- JS `Map.prototype.set`: replace in place if present, else append. -/
def mapSet (k : String) (v : MCPServerRecord) : ProxyRegistry → ProxyRegistry
  | [] => [(k, v)]
  | (k', v') :: rest => if k' = k then (k, v) :: rest else (k', v') :: mapSet k v rest

/-- `MCPProxy.getOrCreateServer`, as a registry transition: reuse a live
child under the same server id (bumping `lastActivity`), otherwise spawn
and register a fresh record.  Returns the new registry, the server id and
whether a process was spawned.  The `packageType` argument selects the
spawn command and does not affect the registry. -/
def getOrCreateServer (registry : ProxyRegistry) (packageName : String)
    (packageType : String) (params : List (String × String)) (now : Nat) :
    ProxyRegistry × String × Bool :=
  let serverId := computeServerId packageName params
  let _ := packageType
  match registry.lookup serverId with
  | some server =>
    if !server.killed then
      (mapSet serverId { server with lastActivity := now } registry, serverId, false)
    else
      (mapSet serverId
        { packageName := packageName, startTime := now, lastActivity := now
          clients := [], killed := false } registry, serverId, true)
  | none =>
      (mapSet serverId
        { packageName := packageName, startTime := now, lastActivity := now
          clients := [], killed := false } registry, serverId, true)

/-- `maxInactivity` of `cleanupInactiveServers` (30 minutes, in ms). -/
def maxInactivityMs : Nat := 30 * 60 * 1000

/-- The `setInterval` period of the reaper in the `MCPProxy` constructor
(5 minutes, in ms). -/
def cleanupIntervalMs : Nat := 5 * 60 * 1000

/-- The reap condition of `cleanupInactiveServers`:
`server.clients.size === 0 && (now - server.lastActivity) > maxInactivity`. -/
def shouldReap (now : Nat) (s : MCPServerRecord) : Bool :=
  s.clients.length = 0 && decide ((now : Int) - (s.lastActivity : Int) > (maxInactivityMs : Int))

/-- `MCPProxy.cleanupInactiveServers`: one reaper pass over the registry;
returns the surviving registry and the ids of the killed children. -/
def cleanupInactiveServers (now : Nat) : ProxyRegistry → ProxyRegistry × List String
  | [] => ([], [])
  | (id, s) :: rest =>
    if shouldReap now s then
      ((cleanupInactiveServers now rest).1, id :: (cleanupInactiveServers now rest).2)
    else
      ((id, s) :: (cleanupInactiveServers now rest).1, (cleanupInactiveServers now rest).2)

/-! ## `process-manager.ts` -/

/-- `ProcessInfo` from `types.ts` (the child process abstracted away). -/
structure ProcessInfoM where
  packageName : String
  protocol : String
  startTime : Nat
  lastAccess : Nat
  deriving Repr, DecidableEq

/-- `MCPCommandResult` from `types.ts`. -/
structure MCPCommandResult where
  command : String
  args : List String
  env : List (String × String)
  deriving Repr, DecidableEq

/-- The `parameterMappings` table shared by `mcp-proxy.ts` and
`process-manager.ts`. -/
def parameterMappings : List (String × String) :=
  [("firecrawlApiKey", "FIRECRAWL_API_KEY"), ("openaiApiKey", "OPENAI_API_KEY"),
   ("anthropicApiKey", "ANTHROPIC_API_KEY"), ("githubToken", "GITHUB_TOKEN"),
   ("slackToken", "SLACK_TOKEN"), ("discordToken", "DISCORD_TOKEN"),
   ("apiKey", "API_KEY"), ("accessToken", "ACCESS_TOKEN"),
   ("bearerToken", "BEARER_TOKEN"), ("clientId", "CLIENT_ID"),
   ("clientSecret", "CLIENT_SECRET")]

/-- Association-list `set` for the environment object. -/
def envSet (k v : String) : List (String × String) → List (String × String)
  | [] => [(k, v)]
  | (k', v') :: rest => if k' = k then (k, v) :: rest else (k', v') :: envSet k v rest

/-- `mapParametersToEnv` from `process-manager.ts` (the inherited
`process.env` base is omitted): non-`args` keys go through the mapping
table, else generic sanitization; unsanitizable keys are dropped. -/
def mapParametersToEnv (params : List (String × String)) : List (String × String) :=
  params.foldl (fun env kv =>
    if kv.1 ≠ "args" then
      match parameterMappings.lookup kv.1 with
      | some envKey => envSet envKey (sanitizeEnvValue kv.2) env
      | none =>
        match sanitizeEnvKey kv.1 with
        | some envKey => envSet envKey (sanitizeEnvValue kv.2) env
        | none => env
    else env) []

/-- Single-byte percent-decoding, the fragment of `decodeURIComponent`
exercised by ASCII argument strings (multi-byte UTF-8 sequences are out
of the modelled scope). -/
def percentDecode (l : List Char) : List Char :=
  go l.length l
where
  hexVal (c : Char) : Option Nat :=
    let n := c.toNat
    if 48 ≤ n && n ≤ 57 then some (n - 48)
    else if 97 ≤ n && n ≤ 102 then some (n - 87)
    else if 65 ≤ n && n ≤ 70 then some (n - 55)
    else none
  go : Nat → List Char → List Char
  | 0, l => l
  | _, [] => []
  | fuel + 1, c :: rest =>
    if c = Char.ofNat 37 then
      match rest with
      | h1 :: h2 :: rest' =>
        match hexVal h1, hexVal h2 with
        | some a, some b => Char.ofNat (a * 16 + b) :: go fuel rest'
        | _, _ => c :: go fuel rest
      | _ => c :: go fuel rest
    else c :: go fuel rest

/-- `decodeURIComponent` on a string (ASCII fragment). -/
def decodeURIComponent (s : String) : String :=
  ⟨percentDecode s.data⟩

/-- `buildMCPCommand` from `process-manager.ts`: pick the package runner
by ecosystem, pin the version into the package token, and append the
validated extra arguments. -/
def buildMCPCommand (packageName : String) (packageType : String)
    (params : List (String × String)) : Except String MCPCommandResult :=
  let env := mapParametersToEnv params
  let parsedPackage := parsePackageName packageName
  let pinnedPy : List String :=
    if parsedPackage.version ≠ "" && parsedPackage.version ≠ "latest" then
      [parsedPackage.fullName ++ "==" ++ parsedPackage.version]
    else [parsedPackage.fullName]
  let pinnedNpm : List String :=
    if parsedPackage.version ≠ "" && parsedPackage.version ≠ "latest" then
      ["-y", parsedPackage.fullName ++ "@" ++ parsedPackage.version]
    else ["-y", parsedPackage.fullName]
  if packageType = "python" then
    match params.lookup "args" with
    | some a =>
      match validateArgs (decodeURIComponent a) with
      | Except.error e => Except.error e
      | Except.ok extra => Except.ok ⟨"uvx", pinnedPy ++ extra, env⟩
    | none => Except.ok ⟨"uvx", pinnedPy, env⟩
  else if packageType = "npm" then
    match params.lookup "args" with
    | some a =>
      match validateArgs (decodeURIComponent a) with
      | Except.error e => Except.error e
      | Except.ok extra => Except.ok ⟨"npx", pinnedNpm ++ extra, env⟩
    | none => Except.ok ⟨"npx", pinnedNpm, env⟩
  else Except.error ("Unsupported package type: " ++ packageType)

/-- Association-list `set` for the process table. -/
def procSet (k : String) (v : ProcessInfoM) :
    List (String × ProcessInfoM) → List (String × ProcessInfoM)
  | [] => [(k, v)]
  | (k', v') :: rest => if k' = k then (k, v) :: rest else (k', v') :: procSet k v rest

/-- `ProcessManager.startMCPServer`, as a table transition: enforce the
concurrency cap, build the command, check the runner exists
(`commandExists` oracle), then record the process.  Errors are the thrown
`Error` messages; on error the table is unchanged (the code throws before
`set`). -/
def startMCPServer (procs : List (String × ProcessInfoM)) (now : Nat)
    (commandExists : String → Bool) (packageName protocol packageType : String)
    (params : List (String × String)) :
    Except String (String × List (String × ProcessInfoM)) :=
  let processId := packageName ++ "_" ++ protocol ++ "_" ++ toString now
  if procs.length ≥ maxConcurrentProcesses then
    Except.error ("MAX_PROCESSES_EXCEEDED:" ++ toString maxConcurrentProcesses)
  else
    match buildMCPCommand packageName packageType params with
    | Except.error e => Except.error e
    | Except.ok cmd =>
      if !(commandExists cmd.command) then
        Except.error ("RUNTIME_NOT_AVAILABLE:" ++ cmd.command ++ ":" ++ packageType)
      else
        Except.ok (processId,
          procSet processId
            { packageName := packageName, protocol := protocol
              startTime := now, lastAccess := now } procs)

/-! ## Sorting lemmas for the params hash -/

theorem char_toNat_injective {a b : Char} (h : a.toNat = b.toNat) : a = b := by
  have := Char.ofNat_toNat a
  rw [h] at this
  rw [← this, Char.ofNat_toNat]

theorem lexLe_total (a b : List Char) : lexLe a b = true ∨ lexLe b a = true := by
  induction a generalizing b with
  | nil => left; rfl
  | cons x xs ih =>
    cases b with
    | nil => right; rfl
    | cons y ys =>
      simp only [lexLe]
      rcases Nat.lt_trichotomy x.toNat y.toNat with h | h | h
      · left; simp [h]
      · have hne : ¬ x.toNat < y.toNat := by omega
        have hne' : ¬ y.toNat < x.toNat := by omega
        rcases ih ys with hc | hc
        · left; simp [hne, hne', hc]
        · right; simp [hne, hne', hc]
      · right; simp [h]

theorem lexLe_antisymm {a b : List Char} (h1 : lexLe a b = true) (h2 : lexLe b a = true) :
    a = b := by
  induction a generalizing b with
  | nil =>
    cases b with
    | nil => rfl
    | cons y ys => simp [lexLe] at h2
  | cons x xs ih =>
    cases b with
    | nil => simp [lexLe] at h1
    | cons y ys =>
      simp only [lexLe] at h1 h2
      rcases Nat.lt_trichotomy x.toNat y.toNat with h | h | h
      · have : ¬ y.toNat < x.toNat := by omega
        simp [h, this] at h2
      · have hx : ¬ x.toNat < y.toNat := by omega
        have hy : ¬ y.toNat < x.toNat := by omega
        simp only [hx, hy, if_false] at h1 h2
        rw [char_toNat_injective h, ih h1 h2]
  -- the remaining trichotomy case mirrors the first
      · have : ¬ x.toNat < y.toNat := by omega
        simp [h, this] at h1

theorem lexLe_cons_iff {x y : Char} {xs ys : List Char} :
    lexLe (x :: xs) (y :: ys) = true ↔
      (x.toNat < y.toNat ∨ (x.toNat = y.toNat ∧ lexLe xs ys = true)) := by
  show (if x.toNat < y.toNat then true
    else if y.toNat < x.toNat then false else lexLe xs ys) = true ↔ _
  split_ifs with hlt hgt
  · simp [hlt]
  · constructor
    · intro h; exact absurd h (by simp)
    · rintro (h | ⟨h, _⟩) <;> omega
  · have heq : x.toNat = y.toNat := by omega
    constructor
    · intro h; exact Or.inr ⟨heq, h⟩
    · rintro (h | ⟨_, h⟩)
      · omega
      · exact h

theorem lexLe_trans {a b c : List Char} (h1 : lexLe a b = true) (h2 : lexLe b c = true) :
    lexLe a c = true := by
  induction a generalizing b c with
  | nil => rfl
  | cons x xs ih =>
    cases b with
    | nil => simp [lexLe] at h1
    | cons y ys =>
      cases c with
      | nil => simp [lexLe] at h2
      | cons z zs =>
        rw [lexLe_cons_iff] at h1 h2 ⊢
        rcases h1 with h1 | ⟨h1e, h1r⟩
        · rcases h2 with h2 | ⟨h2e, _⟩
          · exact Or.inl (by omega)
          · exact Or.inl (by omega)
        · rcases h2 with h2 | ⟨h2e, h2r⟩
          · exact Or.inl (by omega)
          · exact Or.inr ⟨by omega, ih h1r h2r⟩

/-- Key order on parameter pairs. -/
def keyLe (p q : String × String) : Prop := lexLe p.1.data q.1.data = true

theorem insertByKey_perm (p : String × String) (l : List (String × String)) :
    (insertByKey p l).Perm (p :: l) := by
  induction l with
  | nil => exact List.Perm.refl _
  | cons q rest ih =>
    simp only [insertByKey]
    by_cases h : lexLe p.1.data q.1.data = true
    · rw [if_pos h]
    · rw [if_neg h]
      exact (List.Perm.cons q ih).trans (List.Perm.swap p q rest)

theorem sortByKey_perm (l : List (String × String)) : (sortByKey l).Perm l := by
  induction l with
  | nil => exact List.Perm.refl _
  | cons p rest ih =>
    exact (insertByKey_perm p (sortByKey rest)).trans (List.Perm.cons p ih)

theorem insertByKey_pairwise (p : String × String) (l : List (String × String))
    (h : l.Pairwise keyLe) : (insertByKey p l).Pairwise keyLe := by
  induction l with
  | nil => exact List.pairwise_singleton keyLe p
  | cons q rest ih =>
    rw [List.pairwise_cons] at h
    obtain ⟨hq, hrest⟩ := h
    simp only [insertByKey]
    by_cases hle : lexLe p.1.data q.1.data = true
    · rw [if_pos hle]
      refine List.Pairwise.cons ?_ (List.Pairwise.cons hq hrest)
      intro x hx
      rcases List.mem_cons.mp hx with rfl | hx'
      · exact hle
      · exact lexLe_trans hle (hq x hx')
    · rw [if_neg hle]
      have hqp : keyLe q p := by
        rcases lexLe_total p.1.data q.1.data with hc | hc
        · exact absurd hc hle
        · exact hc
      refine List.Pairwise.cons ?_ (ih hrest)
      intro x hx
      have hx' : x ∈ p :: rest := (insertByKey_perm p rest).mem_iff.mp hx
      rcases List.mem_cons.mp hx' with rfl | hx''
      · exact hqp
      · exact hq x hx''

theorem sortByKey_pairwise (l : List (String × String)) : (sortByKey l).Pairwise keyLe := by
  induction l with
  | nil => exact List.Pairwise.nil
  | cons p rest ih => exact insertByKey_pairwise p (sortByKey rest) ih

theorem string_eq_of_data_eq {a b : String} (h : a.data = b.data) : a = b := by
  cases a
  cases b
  congr 1

theorem sorted_perm_nodupkeys_eq : ∀ (l1 l2 : List (String × String)),
    l1.Pairwise keyLe → l2.Pairwise keyLe → (l1.map Prod.fst).Nodup →
    l1.Perm l2 → l1 = l2 := by
  intro l1
  induction l1 with
  | nil =>
    intro l2 _ _ _ hperm
    exact hperm.nil_eq
  | cons p t1 ih =>
    intro l2 h1 h2 hnd hperm
    cases l2 with
    | nil => exact absurd hperm.symm.nil_eq (by simp)
    | cons q t2 =>
      rw [List.pairwise_cons] at h1 h2
      obtain ⟨hp, ht1⟩ := h1
      obtain ⟨hq, ht2⟩ := h2
      by_cases hpq : p = q
      · subst hpq
        have : t1.Perm t2 := hperm.cons_inv
        rw [ih t2 ht1 ht2 (by simpa using (List.nodup_cons.mp (by simpa using hnd)).2) this]
      · exfalso
        have hpin : p ∈ q :: t2 := hperm.mem_iff.mp (List.mem_cons_self p t1)
        have hpt2 : p ∈ t2 := by
          rcases List.mem_cons.mp hpin with h | h
          · exact absurd h hpq
          · exact h
        have hqin : q ∈ p :: t1 := hperm.symm.mem_iff.mp (List.mem_cons_self q t2)
        have hqt1 : q ∈ t1 := by
          rcases List.mem_cons.mp hqin with h | h
          · exact absurd h.symm hpq
          · exact h
        have hle1 : keyLe p q := hp q hqt1
        have hle2 : keyLe q p := hq p hpt2
        have hkey : p.1 = q.1 :=
          string_eq_of_data_eq (lexLe_antisymm hle1 hle2)
        rw [List.map_cons, List.nodup_cons] at hnd
        exact hnd.1 (hkey ▸ List.mem_map_of_mem Prod.fst hqt1)

theorem sortByKey_eq_of_perm {p1 p2 : List (String × String)}
    (hnd : (p1.map Prod.fst).Nodup) (hperm : p1.Perm p2) :
    sortByKey p1 = sortByKey p2 := by
  apply sorted_perm_nodupkeys_eq
  · exact sortByKey_pairwise p1
  · exact sortByKey_pairwise p2
  · exact ((sortByKey_perm p1).map Prod.fst).nodup_iff.mpr hnd
  · exact ((sortByKey_perm p1).trans hperm).trans (sortByKey_perm p2).symm

theorem base64Encode_length_ge8 (l : List Nat) (h : 4 ≤ l.length) :
    8 ≤ (base64Encode l).length := by
  match l with
  | [] => simp at h
  | [a] => simp at h
  | [a, b] => simp at h
  | [a, b, c] => simp at h
  | a :: b :: c :: d :: rest =>
    show 8 ≤ (base64Char (a / 4) :: base64Char ((a % 4) * 16 + b / 16) ::
      base64Char ((b % 16) * 4 + c / 64) :: base64Char (c % 64) ::
      base64Encode (d :: rest)).length
    have h4 : 4 ≤ (base64Encode (d :: rest)).length := by
      cases rest with
      | nil => simp [base64Encode]
      | cons e rest2 =>
        cases rest2 with
        | nil => simp [base64Encode]
        | cons f rest3 =>
          show 4 ≤ (base64Char (d / 4) :: base64Char ((d % 4) * 16 + e / 16) ::
            base64Char ((e % 16) * 4 + f / 64) :: base64Char (f % 64) ::
            base64Encode rest3).length
          simp only [List.length_cons]
          omega
    simp only [List.length_cons]
    omega

theorem strLitBytes_length_ge2 (s : List Char) : 2 ≤ (strLitBytes s).length := by
  simp only [strLitBytes, List.length_cons, List.length_append]
  omega

theorem stringifyObj_cons_length (k : List Char) (v : Json) (tl : JsonObj) :
    (strLitBytes k).length + 1 ≤ (stringifyObj (JsonObj.cons k v tl)).length := by
  cases tl with
  | nil =>
    show _ ≤ (strLitBytes k ++ 58 :: stringifyJson v).length
    simp only [List.length_append, List.length_cons]
    omega
  | cons k2 v2 tl2 =>
    show _ ≤ (strLitBytes k ++ 58 :: stringifyJson v ++
      44 :: stringifyObj (JsonObj.cons k2 v2 tl2)).length
    simp only [List.length_append, List.length_cons]
    omega

theorem hashParamsInput_length_ge4 (params : List (String × String))
    (h : params ≠ []) : 4 ≤ (hashParamsInput params).length := by
  have hs : sortByKey params ≠ [] := by
    intro hc
    have := sortByKey_perm params
    rw [hc] at this
    exact h this.nil_eq.symm
  obtain ⟨kv, rest, hkv⟩ : ∃ kv rest, sortByKey params = kv :: rest := by
    cases hsk : sortByKey params with
    | nil => exact absurd hsk hs
    | cons kv rest => exact ⟨kv, rest, rfl⟩
  unfold hashParamsInput
  rw [hkv]
  obtain ⟨k, v⟩ := kv
  show 4 ≤ (stringifyJson (Json.obj
    (JsonObj.cons k.data (Json.str v.data) (paramsToJsonObj rest)))).length
  have h1 := stringifyObj_cons_length k.data (Json.str v.data) (paramsToJsonObj rest)
  have h2 := strLitBytes_length_ge2 k.data
  show 4 ≤ (123 :: stringifyObj (JsonObj.cons k.data (Json.str v.data)
    (paramsToJsonObj rest)) ++ [125]).length
  simp only [List.length_cons, List.length_append]
  omega

/-! ## Claim C5 — server ids and the params hash -/

/-- C5 counterexample: the hash of the empty params map has length 4, not
8, and the two distinct params maps `{aa: x}` and `{aa: y}` collide —
their serialized forms agree on the first 6 bytes, which determine all 8
kept base64 characters — so distinct params maps do not always yield
distinct server ids. -/
theorem computeServerId_counterexample :
    ([("aa", "x")] : List (String × String)) ≠ [("aa", "y")] ∧
    computeServerId "p" [("aa", "x")] = computeServerId "p" [("aa", "y")] ∧
    (hashParams []).length = 4 := by
  refine ⟨by decide, by decide, by decide⟩

/-- C5 (amended): `computeServerId pkg params = pkg ++ "_" ++ h` where `h`
is the truncated base64 digest of the key-sorted serialization: `h`
depends only on the set of (key, value) pairs — any two permutations of a
duplicate-free params map hash identically — and `h` has length exactly 8
whenever the params map is nonempty (the empty map gives the 4-character
digest `e30=`); distinct maps may collide. -/
theorem computeServerId_spec :
    (∀ pkg params, computeServerId pkg params = pkg ++ "_" ++ hashParams params) ∧
    (∀ p1 p2 : List (String × String), (p1.map Prod.fst).Nodup → p1.Perm p2 →
      hashParams p1 = hashParams p2) ∧
    (∀ params : List (String × String), params ≠ [] → (hashParams params).length = 8) := by
  refine ⟨fun pkg params => rfl, ?_, ?_⟩
  · intro p1 p2 hnd hperm
    unfold hashParams hashParamsInput
    rw [sortByKey_eq_of_perm hnd hperm]
  · intro params h
    have h4 := hashParamsInput_length_ge4 params h
    have h8 := base64Encode_length_ge8 _ h4
    show (⟨(base64Encode (hashParamsInput params)).take 8⟩ : String).length = 8
    show ((base64Encode (hashParamsInput params)).take 8).length = 8
    rw [List.length_take]
    omega

/-- C5 witness: order-invariance and the 8-character length at concrete
params maps. -/
theorem computeServerId_spec_witness :
    hashParams [("b", "2"), ("a", "1")] = hashParams [("a", "1"), ("b", "2")] ∧
    (hashParams [("aa", "x")]).length = 8 := by
  refine ⟨computeServerId_spec.2.1 _ _ (by decide) (by decide),
    computeServerId_spec.2.2 _ (by decide)⟩

/-! ## Claim C6 — the idle reaper -/

/-- C6: one pass of the reaper (scheduled every 5 minutes) removes from
the registry exactly those entries with no subscribed clients whose time
since `lastActivity` exceeds 30 minutes, and kills exactly the ids of
those entries; every other entry survives unchanged, in order. -/
theorem cleanupInactiveServers_correct (now : Nat) (registry : ProxyRegistry) :
    ((cleanupInactiveServers now registry).1 =
      registry.filter (fun e => !(shouldReap now e.2))) ∧
    (∀ e : String × MCPServerRecord,
      e ∈ (cleanupInactiveServers now registry).1 ↔
        e ∈ registry ∧
          ¬(e.2.clients = [] ∧ (now : Int) - (e.2.lastActivity : Int) > 30 * 60 * 1000)) ∧
    (∀ id : String, id ∈ (cleanupInactiveServers now registry).2 ↔
      ∃ s, (id, s) ∈ registry ∧ s.clients = [] ∧
        (now : Int) - (s.lastActivity : Int) > 30 * 60 * 1000) ∧
    cleanupIntervalMs = 5 * 60 * 1000 := by
  have hcond : ∀ s : MCPServerRecord, shouldReap now s = true ↔
      (s.clients = [] ∧ (now : Int) - (s.lastActivity : Int) > 30 * 60 * 1000) := by
    intro s
    unfold shouldReap maxInactivityMs
    rw [Bool.and_eq_true, decide_eq_true_iff, decide_eq_true_iff]
    constructor
    · rintro ⟨h1, h2⟩
      exact ⟨List.eq_nil_of_length_eq_zero h1, by push_cast at h2 ⊢; omega⟩
    · rintro ⟨h1, h2⟩
      refine ⟨by rw [h1]; rfl, by push_cast at h2 ⊢; omega⟩
  have hmain : ∀ reg : ProxyRegistry, ((cleanupInactiveServers now reg).1 =
      reg.filter (fun e => !(shouldReap now e.2))) ∧
      ((cleanupInactiveServers now reg).2 =
        (reg.filter (fun e => shouldReap now e.2)).map Prod.fst) := by
    intro reg
    induction reg with
    | nil => exact ⟨rfl, rfl⟩
    | cons e rest ih =>
      obtain ⟨id, s⟩ := e
      have heq : cleanupInactiveServers now ((id, s) :: rest) =
          if shouldReap now s then
            ((cleanupInactiveServers now rest).1, id :: (cleanupInactiveServers now rest).2)
          else
            ((id, s) :: (cleanupInactiveServers now rest).1,
              (cleanupInactiveServers now rest).2) := rfl
      rw [heq]
      cases hr : shouldReap now s with
      | true => simp [List.filter_cons, hr, ih.1, ih.2]
      | false => simp [List.filter_cons, hr, ih.1, ih.2]
  refine ⟨(hmain registry).1, ?_, ?_, rfl⟩
  · intro e
    rw [(hmain registry).1, List.mem_filter]
    constructor
    · rintro ⟨hmem, hb⟩
      refine ⟨hmem, fun hc => ?_⟩
      rw [(hcond e.2).mpr hc] at hb
      exact Bool.false_ne_true hb
    · rintro ⟨hmem, hb⟩
      refine ⟨hmem, ?_⟩
      cases hx : shouldReap now e.2 with
      | true => exact absurd ((hcond e.2).mp hx) hb
      | false => simp [hx]
  · intro id
    rw [(hmain registry).2]
    constructor
    · intro h
      obtain ⟨⟨id', s⟩, hmem, rfl⟩ := List.mem_map.mp h
      rw [List.mem_filter] at hmem
      exact ⟨s, hmem.1, (hcond s).mp hmem.2⟩
    · rintro ⟨s, hmem, hc⟩
      exact List.mem_map.mpr ⟨(id, s), List.mem_filter.mpr ⟨hmem, (hcond s).mpr hc⟩, rfl⟩

/-! ## Claim C1 — where the concurrency cap lives -/

/-- A registry of 10 live children. -/
def tenLiveServers : ProxyRegistry :=
  (List.range 10).map (fun i => ("srv" ++ toString i,
    { packageName := "pkg", startTime := 0, lastActivity := 0
      clients := [], killed := false }))

/-- C1 counterexample: with the registry already holding 10 live children
(the configured cap) and a key with no live child,
`MCPProxy.getOrCreateServer` does *not* fail with
`MAX_PROCESSES_EXCEEDED`: it spawns an 11th child and registers it. -/
theorem getOrCreateServer_cap_counterexample :
    tenLiveServers.length = maxConcurrentProcesses ∧
    (∀ e ∈ tenLiveServers, e.2.killed = false) ∧
    tenLiveServers.lookup (computeServerId "newpkg" []) = none ∧
    (getOrCreateServer tenLiveServers "newpkg" "npm" [] 0).2.2 = true ∧
    (getOrCreateServer tenLiveServers "newpkg" "npm" [] 0).1.length =
      maxConcurrentProcesses + 1 := by
  refine ⟨by decide, by decide, by decide, by decide, by decide⟩

theorem lookup_none_mapSet_length {k : String} {v : MCPServerRecord}
    {l : ProxyRegistry} (h : l.lookup k = none) :
    (mapSet k v l).length = l.length + 1 := by
  induction l with
  | nil => rfl
  | cons e rest ih =>
    obtain ⟨k', v'⟩ := e
    cases hbeq : (k == k') with
    | true =>
      have hlk : List.lookup k ((k', v') :: rest) = some v' := by
        simp [List.lookup, hbeq]
      rw [hlk] at h
      exact Option.noConfusion h
    | false =>
      have hlk : List.lookup k ((k', v') :: rest) = List.lookup k rest := by
        simp [List.lookup, hbeq]
      rw [hlk] at h
      have hk : ¬ (k' = k) := fun hc => by simp [hc] at hbeq
      show (if k' = k then (k, v) :: rest else (k', v') :: mapSet k v rest).length = _
      rw [if_neg hk]
      simp only [List.length_cons, ih h]

/-- C1 (amended): the concurrency cap (default 10) is enforced by
`ProcessManager.startMCPServer`, which fails with
`MAX_PROCESSES_EXCEEDED` — before any spawn and leaving the process table
untouched — whenever the table already holds at least the cap;
`MCPProxy.getOrCreateServer` enforces no cap: on any key with no live
child it spawns and registers a new child regardless of the live count. -/
theorem processCap_enforcement :
    (∀ procs now commandExists packageName protocol packageType params,
      procs.length ≥ maxConcurrentProcesses →
      startMCPServer procs now commandExists packageName protocol packageType params =
        Except.error ("MAX_PROCESSES_EXCEEDED:" ++ toString maxConcurrentProcesses)) ∧
    (∀ (registry : ProxyRegistry) packageName packageType params now,
      registry.lookup (computeServerId packageName params) = none →
      (getOrCreateServer registry packageName packageType params now).2.2 = true ∧
      (getOrCreateServer registry packageName packageType params now).1.length =
        registry.length + 1) := by
  constructor
  · intro procs now ce pkg proto ptype params h
    unfold startMCPServer
    rw [if_pos h]
  · intro registry pkg ptype params now h
    constructor
    · simp [getOrCreateServer, h]
    · simp only [getOrCreateServer, h]
      exact lookup_none_mapSet_length h

/-- C1 witness: the cap branch of `startMCPServer` on a full table, and a
capless spawn through `getOrCreateServer` on the full live registry. -/
theorem processCap_enforcement_witness :
    startMCPServer
      ((List.range 10).map (fun i => ("p" ++ toString i,
        ({ packageName := "pkg", protocol := "sse", startTime := 0,
           lastAccess := 0 } : ProcessInfoM)))) 0 (fun _ => true)
      "newpkg" "sse" "npm" [] =
      Except.error ("MAX_PROCESSES_EXCEEDED:" ++ toString maxConcurrentProcesses) ∧
    (getOrCreateServer tenLiveServers "newpkg" "npm" [] 0).2.2 = true ∧
    (getOrCreateServer tenLiveServers "newpkg" "npm" [] 0).1.length =
      tenLiveServers.length + 1 := by
  refine ⟨processCap_enforcement.1 _ 0 _ "newpkg" "sse" "npm" [] (by decide), ?_, ?_⟩
  · exact (processCap_enforcement.2 tenLiveServers "newpkg" "npm" [] 0 (by decide)).1
  · exact (processCap_enforcement.2 tenLiveServers "newpkg" "npm" [] 0 (by decide)).2

/-! ## `JSON.parse` on bytes

A byte-level model of `JSON.parse` applied to a UTF-8 buffer slice, over
the `Json` fragment above (numbers are integers; inputs that are not
valid UTF-8 are rejected rather than replaced).  Fuel-indexed so that it
is structurally recursive and reduces definitionally. -/

/-- JSON whitespace accepted by `JSON.parse`. -/
def isJsonWs (b : Nat) : Bool := b = 32 || b = 9 || b = 10 || b = 13

/-- Drop leading JSON whitespace. -/
def skipWs : List Nat → List Nat
  | [] => []
  | b :: rest => if isJsonWs b then skipWs rest else b :: rest

/-- ASCII digit byte. -/
def isDigitByte (b : Nat) : Bool := 48 ≤ b && b ≤ 57

/-- Longest digit run and the remainder. -/
def takeDigits : List Nat → List Nat × List Nat
  | [] => ([], [])
  | b :: rest =>
    if isDigitByte b then
      ((b :: (takeDigits rest).1), (takeDigits rest).2)
    else ([], b :: rest)

/-- Value of a digit-byte run (the integer `parseInt` would return). -/
def digitsToNat (ds : List Nat) : Nat :=
  ds.foldl (fun acc d => acc * 10 + (d - 48)) 0

/-- Hex digit value of a byte, for `\uXXXX` escapes. -/
def hexVal (b : Nat) : Option Nat :=
  if 48 ≤ b && b ≤ 57 then some (b - 48)
  else if 97 ≤ b && b ≤ 102 then some (b - 87)
  else if 65 ≤ b && b ≤ 70 then some (b - 55)
  else none

/-- A Unicode scalar value as a `Char`, if valid. -/
def mkChar? (n : Nat) : Option Char :=
  if Nat.isValidChar n then some (Char.ofNat n) else none

/-- Scan exactly one string-literal character at the head of the buffer
(escape sequence, plain ASCII, or multi-byte UTF-8 sequence); returns the
character and the unconsumed remainder.  The opening byte is assumed not
to be the closing quote. -/
def strScanStep : List Nat → Option (Char × List Nat)
  | [] => none
  | b :: rest =>
    if b = 92 then
      match rest with
      | [] => none
      | e :: r =>
        if e = 34 then some (Char.ofNat 34, r)
        else if e = 92 then some (Char.ofNat 92, r)
        else if e = 47 then some (Char.ofNat 47, r)
        else if e = 98 then some (Char.ofNat 8, r)
        else if e = 116 then some (Char.ofNat 9, r)
        else if e = 110 then some (Char.ofNat 10, r)
        else if e = 102 then some (Char.ofNat 12, r)
        else if e = 114 then some (Char.ofNat 13, r)
        else if e = 117 then
          match r with
          | h1 :: h2 :: h3 :: h4 :: r2 =>
            match hexVal h1, hexVal h2, hexVal h3, hexVal h4 with
            | some a, some b1, some c1, some d1 =>
              match mkChar? (a * 4096 + b1 * 256 + c1 * 16 + d1) with
              | some ch => some (ch, r2)
              | none => none
            | _, _, _, _ => none
          | _ => none
        else none
    else if b < 32 then none
    else if b < 128 then some (Char.ofNat b, rest)
    else if b < 194 then none
    else if b ≤ 223 then
      match rest with
      | b2 :: r =>
        if 128 ≤ b2 && b2 ≤ 191 then
          match mkChar? ((b - 192) * 64 + (b2 - 128)) with
          | some ch => some (ch, r)
          | none => none
        else none
      | [] => none
    else if b ≤ 239 then
      match rest with
      | b2 :: b3 :: r =>
        if (128 ≤ b2 && b2 ≤ 191) && (128 ≤ b3 && b3 ≤ 191) then
          if (b - 224) * 4096 + (b2 - 128) * 64 + (b3 - 128) < 2048 then none
          else
            match mkChar? ((b - 224) * 4096 + (b2 - 128) * 64 + (b3 - 128)) with
            | some ch => some (ch, r)
            | none => none
        else none
      | _ => none
    else if b ≤ 244 then
      match rest with
      | b2 :: b3 :: b4 :: r =>
        if ((128 ≤ b2 && b2 ≤ 191) && (128 ≤ b3 && b3 ≤ 191)) && (128 ≤ b4 && b4 ≤ 191) then
          if (b - 240) * 262144 + (b2 - 128) * 4096 + (b3 - 128) * 64 + (b4 - 128) < 65536
          then none
          else
            match mkChar? ((b - 240) * 262144 + (b2 - 128) * 4096 +
                (b3 - 128) * 64 + (b4 - 128)) with
            | some ch => some (ch, r)
            | none => none
        else none
      | _ => none
    else none

/-- Scan the body of a JSON string literal (after the opening quote) up
to the closing quote, one character at a time (fuel-indexed). -/
def parseStrAux : Nat → List Nat → Option (List Char × List Nat)
  | 0, _ => none
  | fuel + 1, l =>
    match l with
    | [] => none
    | b :: rest =>
      if b = 34 then some ([], rest)
      else
        match strScanStep (b :: rest) with
        | some (c, r) => (parseStrAux fuel r).map (fun p => (c :: p.1, p.2))
        | none => none

/-- The string-literal scanner of the byte-level `JSON.parse`. -/
def parseStrBody (l : List Nat) : Option (List Char × List Nat) :=
  parseStrAux (l.length + 1) l

mutual
/-- Parse one JSON value (after optional whitespace); returns the value
and the unconsumed remainder. -/
def parseValue : Nat → List Nat → Option (Json × List Nat)
  | 0, _ => none
  | fuel + 1, input =>
    match skipWs input with
    | [] => none
    | b :: rest =>
      if b = 110 then
        match rest with
        | 117 :: 108 :: 108 :: r => some (Json.null, r)
        | _ => none
      else if b = 116 then
        match rest with
        | 114 :: 117 :: 101 :: r => some (Json.bool true, r)
        | _ => none
      else if b = 102 then
        match rest with
        | 97 :: 108 :: 115 :: 101 :: r => some (Json.bool false, r)
        | _ => none
      else if b = 34 then
        (parseStrBody rest).map (fun p => (Json.str p.1, p.2))
      else if b = 45 then
        match takeDigits rest with
        | ([], _) => none
        | (ds, r) => some (Json.num (-(digitsToNat ds : Int)), r)
      else if isDigitByte b then
        match takeDigits (b :: rest) with
        | (ds, r) => some (Json.num (digitsToNat ds : Int), r)
      else if b = 91 then
        match skipWs rest with
        | 93 :: r => some (Json.arr JsonArr.nil, r)
        | _ => (parseElems fuel rest).map (fun p => (Json.arr p.1, p.2))
      else if b = 123 then
        match skipWs rest with
        | 125 :: r => some (Json.obj JsonObj.nil, r)
        | _ => (parseMembers fuel rest).map (fun p => (Json.obj p.1, p.2))
      else none

/-- Parse a nonempty comma-separated element list up to `]`. -/
def parseElems : Nat → List Nat → Option (JsonArr × List Nat)
  | 0, _ => none
  | fuel + 1, input =>
    match parseValue fuel input with
    | none => none
    | some (v, r) =>
      match skipWs r with
      | 44 :: r2 => (parseElems fuel r2).map (fun p => (JsonArr.cons v p.1, p.2))
      | 93 :: r2 => some (JsonArr.cons v JsonArr.nil, r2)
      | _ => none

/-- Parse a nonempty comma-separated member list up to the closing
brace. -/
def parseMembers : Nat → List Nat → Option (JsonObj × List Nat)
  | 0, _ => none
  | fuel + 1, input =>
    match skipWs input with
    | [] => none
    | b :: r =>
      if b = 34 then
        match parseStrBody r with
        | none => none
        | some (k, r1) =>
          match skipWs r1 with
          | 58 :: r2 =>
            match parseValue fuel r2 with
            | none => none
            | some (v, r3) =>
              match skipWs r3 with
              | 44 :: r4 => (parseMembers fuel r4).map (fun p => (JsonObj.cons k v p.1, p.2))
              | 125 :: r4 => some (JsonObj.cons k v JsonObj.nil, r4)
              | _ => none
          | _ => none
      else none
end

/-- `JSON.parse` on a byte buffer: one value, then only trailing
whitespace. -/
def parseJsonBytes (body : List Nat) : Option Json :=
  match parseValue (body.length + 1) body with
  | some (v, r) => if skipWs r = [] then some v else none
  | none => none

/-! ## The `Content-Length` framer and streaming parser (`jsonrpc.ts`) -/

/-- The frame separator `\r\n\r\n`. -/
def sepBytes : List Nat := [13, 10, 13, 10]

/-- `buffer.indexOf('\r\n\r\n')` as an `Option`. -/
def findSep : List Nat → Option Nat
  | [] => none
  | b :: rest =>
    if sepBytes.isPrefixOf (b :: rest) then some 0
    else (findSep rest).map (fun i => i + 1)

/-- ASCII lowercasing of a byte, for the case-insensitive header match. -/
def lowerByte (b : Nat) : Nat := if 65 ≤ b && b ≤ 90 then b + 32 else b

/-- The bytes of `content-length:`. -/
def clToken : List Nat := [99, 111, 110, 116, 101, 110, 116, 45, 108, 101, 110, 103, 116, 104, 58]

/-- Case-insensitive literal token stripping. -/
def stripToken : List Nat → List Nat → Option (List Nat)
  | [], l => some l
  | _ :: _, [] => none
  | t :: ts, b :: rest => if lowerByte b = t then stripToken ts rest else none

/-- Regex `\s` bytes (ASCII fragment). -/
def isRegexWs (b : Nat) : Bool := b = 32 || b = 9 || b = 10 || b = 13 || b = 11 || b = 12

/-- Drop leading `\s*`. -/
def skipRegexWs : List Nat → List Nat
  | [] => []
  | b :: rest => if isRegexWs b then skipRegexWs rest else b :: rest

/-- Try `/Content-Length:\s*(\d+)/i` anchored at the head. -/
def matchCLAt (l : List Nat) : Option Nat :=
  match stripToken clToken l with
  | none => none
  | some r =>
    match takeDigits (skipRegexWs r) with
    | ([], _) => none
    | (ds, _) => some (digitsToNat ds)

/-- Leftmost match of `/Content-Length:\s*(\d+)/i`, as the regex engine
finds it: try each start position left to right. -/
def matchContentLength : List Nat → Option Nat
  | [] => none
  | b :: rest =>
    match matchCLAt (b :: rest) with
    | some n => some n
    | none => matchContentLength rest

/-- The header `JsonRpcFramer.encode` writes: `Content-Length: ` followed
by the decimal byte count. -/
def clHeaderBytes (n : Nat) : List Nat :=
  [67, 111, 110, 116, 101, 110, 116, 45, 76, 101, 110, 103, 116, 104, 58, 32] ++ natDigits n

/-- A complete wire frame around a given body. -/
def frameOf (body : List Nat) : List Nat :=
  clHeaderBytes body.length ++ sepBytes ++ body

/-- `JsonRpcFramer.encode`: header and serialized body in one buffer. -/
def encodeFrame (message : Json) : List Nat :=
  frameOf (stringifyJson message)

/-- One iteration of the `while (true)` loop of `JsonRpcParser.feed`:
`none` means the loop breaks (no separator, or incomplete frame); `some`
returns the remaining buffer and an emitted message, if the body parsed. -/
def parserStep (buf : List Nat) : Option (List Nat × Option Json) :=
  match findSep buf with
  | none => none
  | some headerEnd =>
    match matchContentLength (buf.take headerEnd) with
    | none => some (buf.drop (headerEnd + 4), none)
    | some len =>
      if buf.length < headerEnd + 4 + len then none
      else
        some (buf.drop (headerEnd + 4 + len),
          parseJsonBytes ((buf.drop (headerEnd + 4)).take len))

/-- Run `parserStep` to quiescence (fuel-indexed; each step strictly
shrinks the buffer). -/
def processBufFuel : Nat → List Nat → List Nat × List Json
  | 0, buf => (buf, [])
  | fuel + 1, buf =>
    match parserStep buf with
    | none => (buf, [])
    | some (buf', e) =>
      ((processBufFuel fuel buf').1, e.toList ++ (processBufFuel fuel buf').2)

/-- The drained loop of `JsonRpcParser.feed` on a buffer: final buffer
and emitted messages in order. -/
def processBuffer (buf : List Nat) : List Nat × List Json :=
  processBufFuel (buf.length + 1) buf

/-- `JsonRpcParser.feed`: append the chunk and drain. -/
def feed (buf chunk : List Nat) : List Nat × List Json :=
  processBuffer (buf ++ chunk)

/-- Feed a sequence of chunks from a fresh parser, collecting all emitted
messages. -/
def feedAll (chunks : List (List Nat)) : List Nat × List Json :=
  chunks.foldl (fun acc chunk =>
    ((feed acc.1 chunk).1, acc.2 ++ (feed acc.1 chunk).2)) ([], [])

/-! ## Round-trip lemmas for the byte-level JSON codec -/

/-- `true` when the list does not begin with a digit byte (so a preceding
maximal digit run cannot extend into it). -/
def nonDigitStart : List Nat → Bool
  | [] => true
  | b :: _ => !isDigitByte b

theorem skipWs_cons_not_ws {b : Nat} (h : isJsonWs b = false) (l : List Nat) :
    skipWs (b :: l) = b :: l := by
  unfold skipWs
  rw [h]
  rfl

theorem takeDigits_append {l rest : List Nat} (hl : ∀ d ∈ l, isDigitByte d = true)
    (hrest : nonDigitStart rest = true) : takeDigits (l ++ rest) = (l, rest) := by
  induction l with
  | nil =>
    cases rest with
    | nil => rfl
    | cons b r =>
      have hb : isDigitByte b = false := by
        have h' : (!isDigitByte b) = true := hrest
        cases hx : isDigitByte b with
        | true => rw [hx] at h'; exact absurd h' (by decide)
        | false => rfl
      show takeDigits (b :: r) = ([], b :: r)
      unfold takeDigits
      rw [hb]
      rfl
  | cons d l' ih =>
    have hd : isDigitByte d = true := hl d (List.mem_cons_self d l')
    have ih' := ih (fun x hx => hl x (List.mem_cons_of_mem d hx))
    show takeDigits (d :: (l' ++ rest)) = (d :: l', rest)
    unfold takeDigits
    rw [hd, ih']
    simp

theorem natDigitsAux_digits : ∀ fuel n d, d ∈ natDigitsAux fuel n → 48 ≤ d ∧ d ≤ 57 := by
  intro fuel
  induction fuel with
  | zero => intro n d h; exact absurd h (by simp [natDigitsAux])
  | succ f ih =>
    intro n d h
    unfold natDigitsAux at h
    by_cases hn : n < 10
    · rw [if_pos hn] at h
      rcases List.mem_singleton.mp h with rfl
      omega
    · rw [if_neg hn] at h
      rcases List.mem_append.mp h with h' | h'
      · exact ih (n / 10) d h'
      · rcases List.mem_singleton.mp h' with rfl
        have := Nat.mod_lt n (show 0 < 10 by omega)
        omega

theorem natDigits_digits {n d : Nat} (h : d ∈ natDigits n) : 48 ≤ d ∧ d ≤ 57 :=
  natDigitsAux_digits (n + 1) n d h

theorem natDigitsAux_ne_nil {fuel n : Nat} (h : 0 < fuel) : natDigitsAux fuel n ≠ [] := by
  cases fuel with
  | zero => omega
  | succ f =>
    unfold natDigitsAux
    by_cases hn : n < 10
    · rw [if_pos hn]; simp
    · rw [if_neg hn]; simp

theorem digitsToNat_append_one (l : List Nat) (d : Nat) :
    digitsToNat (l ++ [d]) = 10 * digitsToNat l + (d - 48) := by
  unfold digitsToNat
  rw [List.foldl_append]
  simp [Nat.mul_comm]

theorem natDigitsAux_val : ∀ fuel n, n < 10 ^ fuel →
    digitsToNat (natDigitsAux fuel n) = n := by
  intro fuel
  induction fuel with
  | zero =>
    intro n h
    simp only [pow_zero, Nat.lt_one_iff] at h
    subst h
    rfl
  | succ f ih =>
    intro n h
    unfold natDigitsAux
    by_cases hn : n < 10
    · rw [if_pos hn]
      show digitsToNat [48 + n] = n
      unfold digitsToNat
      simp
    · rw [if_neg hn]
      rw [digitsToNat_append_one]
      have hdiv : n / 10 < 10 ^ f := by
        apply Nat.div_lt_of_lt_mul
        rw [pow_succ] at h
        omega
      rw [ih (n / 10) hdiv]
      omega

theorem natDigits_val (n : Nat) : digitsToNat (natDigits n) = n := by
  apply natDigitsAux_val
  calc n < 10 ^ n := Nat.lt_pow_self (by omega) n
    _ ≤ 10 ^ (n + 1) := Nat.pow_le_pow_right (by omega) (Nat.le_succ n)

theorem hexVal_hexDigitByte {m : Nat} (h : m < 16) : hexVal (hexDigitByte m) = some m := by
  interval_cases m <;> rfl

theorem char_isValid (c : Char) : Nat.isValidChar c.toNat := c.valid

theorem mkChar?_toNat (c : Char) : mkChar? c.toNat = some c := by
  unfold mkChar?
  rw [if_pos (char_isValid c), Char.ofNat_toNat]

theorem intBytes_digits {n : Int} {d : Nat} (hd : d ∈ intBytes n) :
    (48 ≤ d ∧ d ≤ 57) ∨ d = 45 := by
  unfold intBytes at hd
  by_cases hn : n < 0
  · rw [if_pos hn] at hd
    rcases List.mem_cons.mp hd with rfl | h
    · exact Or.inr rfl
    · exact Or.inl (natDigits_digits h)
  · rw [if_neg hn] at hd
    exact Or.inl (natDigits_digits hd)

theorem strScanStep_escape (c : Char) (tail : List Nat) :
    strScanStep (escapeCharBytes c ++ tail) = some (c, tail) := by
  have hofn : Char.ofNat c.toNat = c := Char.ofNat_toNat c
  have hvalid := char_isValid c
  by_cases h34 : c.toNat = 34
  · rw [show escapeCharBytes c = [92, 34] from by unfold escapeCharBytes; rw [if_pos h34]]
    show some (Char.ofNat 34, tail) = some (c, tail)
    rw [← h34, hofn]
  · by_cases h92 : c.toNat = 92
    · rw [show escapeCharBytes c = [92, 92] from by
        unfold escapeCharBytes; rw [if_neg h34, if_pos h92]]
      show some (Char.ofNat 92, tail) = some (c, tail)
      rw [← h92, hofn]
    · by_cases h8 : c.toNat = 8
      · rw [show escapeCharBytes c = [92, 98] from by
          unfold escapeCharBytes; rw [if_neg h34, if_neg h92, if_pos h8]]
        show some (Char.ofNat 8, tail) = some (c, tail)
        rw [← h8, hofn]
      · by_cases h9 : c.toNat = 9
        · rw [show escapeCharBytes c = [92, 116] from by
            unfold escapeCharBytes; rw [if_neg h34, if_neg h92, if_neg h8, if_pos h9]]
          show some (Char.ofNat 9, tail) = some (c, tail)
          rw [← h9, hofn]
        · by_cases h10 : c.toNat = 10
          · rw [show escapeCharBytes c = [92, 110] from by
              unfold escapeCharBytes
              rw [if_neg h34, if_neg h92, if_neg h8, if_neg h9, if_pos h10]]
            show some (Char.ofNat 10, tail) = some (c, tail)
            rw [← h10, hofn]
          · by_cases h12 : c.toNat = 12
            · rw [show escapeCharBytes c = [92, 102] from by
                unfold escapeCharBytes
                rw [if_neg h34, if_neg h92, if_neg h8, if_neg h9, if_neg h10, if_pos h12]]
              show some (Char.ofNat 12, tail) = some (c, tail)
              rw [← h12, hofn]
            · by_cases h13 : c.toNat = 13
              · rw [show escapeCharBytes c = [92, 114] from by
                  unfold escapeCharBytes
                  rw [if_neg h34, if_neg h92, if_neg h8, if_neg h9, if_neg h10,
                    if_neg h12, if_pos h13]]
                show some (Char.ofNat 13, tail) = some (c, tail)
                rw [← h13, hofn]
              · by_cases hctl : c.toNat < 32
                · rw [show escapeCharBytes c =
                      [92, 117, 48, 48, hexDigitByte (c.toNat / 16),
                        hexDigitByte (c.toNat % 16)] from by
                    unfold escapeCharBytes
                    rw [if_neg h34, if_neg h92, if_neg h8, if_neg h9, if_neg h10,
                      if_neg h12, if_neg h13, if_pos hctl]]
                  show strScanStep (92 :: 117 :: 48 :: 48 :: hexDigitByte (c.toNat / 16) ::
                    hexDigitByte (c.toNat % 16) :: tail) = some (c, tail)
                  simp only [strScanStep]
                  norm_num
                  rw [hexVal_hexDigitByte (by omega), hexVal_hexDigitByte (by omega)]
                  simp only [show hexVal 48 = some 0 from rfl]
                  rw [show (0 * 4096 + 0 * 256 + (c.toNat / 16) * 16 + c.toNat % 16) =
                    c.toNat from by omega]
                  rw [mkChar?_toNat]
                · have hesc : escapeCharBytes c = utf8EncodeChar c.toNat := by
                    unfold escapeCharBytes
                    rw [if_neg h34, if_neg h92, if_neg h8, if_neg h9, if_neg h10,
                      if_neg h12, if_neg h13, if_neg hctl]
                  by_cases hA : c.toNat < 128
                  · rw [hesc, show utf8EncodeChar c.toNat = [c.toNat] from by
                      unfold utf8EncodeChar; rw [if_pos hA]]
                    show strScanStep (c.toNat :: tail) = some (c, tail)
                    simp only [strScanStep]
                    rw [if_neg (by omega : ¬ (c.toNat = 92)),
                      if_neg (by omega : ¬ (c.toNat < 32)), if_pos hA, hofn]
                  · by_cases hB : c.toNat < 2048
                    · rw [hesc, show utf8EncodeChar c.toNat =
                          [192 + c.toNat / 64, 128 + c.toNat % 64] from by
                        unfold utf8EncodeChar; rw [if_neg hA, if_pos hB]]
                      show strScanStep ((192 + c.toNat / 64) ::
                        (128 + c.toNat % 64) :: tail) = some (c, tail)
                      simp only [strScanStep]
                      rw [if_neg (by omega : ¬ (192 + c.toNat / 64 = 92)),
                        if_neg (by omega : ¬ (192 + c.toNat / 64 < 32)),
                        if_neg (by omega : ¬ (192 + c.toNat / 64 < 128)),
                        if_neg (by omega : ¬ (192 + c.toNat / 64 < 194)),
                        if_pos (by omega : 192 + c.toNat / 64 ≤ 223)]
                      rw [if_pos (by simp only [Bool.and_eq_true, decide_eq_true_eq]; omega :
                        (128 ≤ 128 + c.toNat % 64 && 128 + c.toNat % 64 ≤ 191) = true)]
                      rw [show (192 + c.toNat / 64 - 192) * 64 +
                        (128 + c.toNat % 64 - 128) = c.toNat from by omega]
                      rw [mkChar?_toNat]
                    · by_cases hC : c.toNat < 65536
                      · rw [hesc, show utf8EncodeChar c.toNat =
                            [224 + c.toNat / 4096, 128 + (c.toNat / 64) % 64,
                              128 + c.toNat % 64] from by
                          unfold utf8EncodeChar; rw [if_neg hA, if_neg hB, if_pos hC]]
                        show strScanStep ((224 + c.toNat / 4096) ::
                          (128 + (c.toNat / 64) % 64) :: (128 + c.toNat % 64) :: tail) =
                          some (c, tail)
                        simp only [strScanStep]
                        rw [if_neg (by omega : ¬ (224 + c.toNat / 4096 = 92)),
                          if_neg (by omega : ¬ (224 + c.toNat / 4096 < 32)),
                          if_neg (by omega : ¬ (224 + c.toNat / 4096 < 128)),
                          if_neg (by omega : ¬ (224 + c.toNat / 4096 < 194)),
                          if_neg (by omega : ¬ (224 + c.toNat / 4096 ≤ 223)),
                          if_pos (by omega : 224 + c.toNat / 4096 ≤ 239)]
                        rw [if_pos (by
                          simp only [Bool.and_eq_true, decide_eq_true_eq]
                          constructor <;> constructor <;> omega :
                          ((128 ≤ 128 + (c.toNat / 64) % 64 &&
                            128 + (c.toNat / 64) % 64 ≤ 191) &&
                            (128 ≤ 128 + c.toNat % 64 && 128 + c.toNat % 64 ≤ 191)) = true)]
                        rw [show (224 + c.toNat / 4096 - 224) * 4096 +
                          (128 + (c.toNat / 64) % 64 - 128) * 64 +
                          (128 + c.toNat % 64 - 128) = c.toNat from by omega]
                        rw [if_neg (by omega : ¬ (c.toNat < 2048)), mkChar?_toNat]
                      · rw [hesc, show utf8EncodeChar c.toNat =
                            [240 + c.toNat / 262144, 128 + (c.toNat / 4096) % 64,
                              128 + (c.toNat / 64) % 64, 128 + c.toNat % 64] from by
                          unfold utf8EncodeChar; rw [if_neg hA, if_neg hB, if_neg hC]]
                        have hmax : c.toNat < 1114112 := by
                          rcases hvalid with h | ⟨_, h⟩ <;> omega
                        show strScanStep ((240 + c.toNat / 262144) ::
                          (128 + (c.toNat / 4096) % 64) :: (128 + (c.toNat / 64) % 64) ::
                          (128 + c.toNat % 64) :: tail) = some (c, tail)
                        simp only [strScanStep]
                        rw [if_neg (by omega : ¬ (240 + c.toNat / 262144 = 92)),
                          if_neg (by omega : ¬ (240 + c.toNat / 262144 < 32)),
                          if_neg (by omega : ¬ (240 + c.toNat / 262144 < 128)),
                          if_neg (by omega : ¬ (240 + c.toNat / 262144 < 194)),
                          if_neg (by omega : ¬ (240 + c.toNat / 262144 ≤ 223)),
                          if_neg (by omega : ¬ (240 + c.toNat / 262144 ≤ 239)),
                          if_pos (by omega : 240 + c.toNat / 262144 ≤ 244)]
                        rw [if_pos (by
                          simp only [Bool.and_eq_true, decide_eq_true_eq]
                          refine ⟨⟨⟨?_, ?_⟩, ?_, ?_⟩, ?_, ?_⟩ <;> omega :
                          (((128 ≤ 128 + (c.toNat / 4096) % 64 &&
                            128 + (c.toNat / 4096) % 64 ≤ 191) &&
                            (128 ≤ 128 + (c.toNat / 64) % 64 &&
                            128 + (c.toNat / 64) % 64 ≤ 191)) &&
                            (128 ≤ 128 + c.toNat % 64 && 128 + c.toNat % 64 ≤ 191)) = true)]
                        rw [show (240 + c.toNat / 262144 - 240) * 262144 +
                          (128 + (c.toNat / 4096) % 64 - 128) * 4096 +
                          (128 + (c.toNat / 64) % 64 - 128) * 64 +
                          (128 + c.toNat % 64 - 128) = c.toNat from by omega]
                        rw [if_neg (by omega : ¬ (c.toNat < 65536)), mkChar?_toNat]

theorem escapeCharBytes_shape (c : Char) :
    ∃ b bs, escapeCharBytes c = b :: bs ∧ b ≠ 34 := by
  unfold escapeCharBytes
  by_cases h34 : c.toNat = 34
  · rw [if_pos h34]; exact ⟨92, [34], rfl, by omega⟩
  rw [if_neg h34]
  by_cases h92 : c.toNat = 92
  · rw [if_pos h92]; exact ⟨92, [92], rfl, by omega⟩
  rw [if_neg h92]
  by_cases h8 : c.toNat = 8
  · rw [if_pos h8]; exact ⟨92, [98], rfl, by omega⟩
  rw [if_neg h8]
  by_cases h9 : c.toNat = 9
  · rw [if_pos h9]; exact ⟨92, [116], rfl, by omega⟩
  rw [if_neg h9]
  by_cases h10 : c.toNat = 10
  · rw [if_pos h10]; exact ⟨92, [110], rfl, by omega⟩
  rw [if_neg h10]
  by_cases h12 : c.toNat = 12
  · rw [if_pos h12]; exact ⟨92, [102], rfl, by omega⟩
  rw [if_neg h12]
  by_cases h13 : c.toNat = 13
  · rw [if_pos h13]; exact ⟨92, [114], rfl, by omega⟩
  rw [if_neg h13]
  by_cases hctl : c.toNat < 32
  · rw [if_pos hctl]
    exact ⟨92, _, rfl, by omega⟩
  rw [if_neg hctl]
  unfold utf8EncodeChar
  by_cases hA : c.toNat < 128
  · rw [if_pos hA]; exact ⟨c.toNat, [], rfl, by omega⟩
  rw [if_neg hA]
  by_cases hB : c.toNat < 2048
  · rw [if_pos hB]; exact ⟨_, _, rfl, by omega⟩
  rw [if_neg hB]
  by_cases hC : c.toNat < 65536
  · rw [if_pos hC]; exact ⟨_, _, rfl, by omega⟩
  rw [if_neg hC]
  exact ⟨_, _, rfl, by omega⟩

theorem escapeCharBytes_length_pos (c : Char) : 1 ≤ (escapeCharBytes c).length := by
  obtain ⟨b, bs, heq, _⟩ := escapeCharBytes_shape c
  rw [heq]
  simp

theorem escFlatten_length_ge (s : List Char) :
    s.length ≤ ((s.map escapeCharBytes).flatten).length := by
  induction s with
  | nil => simp
  | cons c s' ih =>
    simp only [List.map_cons, List.flatten_cons, List.length_cons, List.length_append]
    have := escapeCharBytes_length_pos c
    omega

theorem parseStrAux_roundtrip : ∀ (s : List Char) (rest : List Nat) (fuel : Nat),
    s.length < fuel →
    parseStrAux fuel ((s.map escapeCharBytes).flatten ++ 34 :: rest) = some (s, rest) := by
  intro s
  induction s with
  | nil =>
    intro rest fuel h
    cases fuel with
    | zero => omega
    | succ f => rfl
  | cons c s' ih =>
    intro rest fuel h
    cases fuel with
    | zero => omega
    | succ f =>
      obtain ⟨b, bs, heq, hb34⟩ := escapeCharBytes_shape c
      have hlist : (((c :: s').map escapeCharBytes).flatten ++ 34 :: rest) =
          b :: (bs ++ ((s'.map escapeCharBytes).flatten ++ 34 :: rest)) := by
        simp only [List.map_cons, List.flatten_cons, heq, List.cons_append,
          List.append_assoc]
      rw [hlist]
      show (if b = 34 then some ([], bs ++ ((s'.map escapeCharBytes).flatten ++ 34 :: rest))
        else match strScanStep (b :: (bs ++ ((s'.map escapeCharBytes).flatten ++ 34 :: rest))) with
        | some (c, r) => (parseStrAux f r).map (fun p => (c :: p.1, p.2))
        | none => none) = some (c :: s', rest)
      rw [if_neg hb34]
      have hscan := strScanStep_escape c ((s'.map escapeCharBytes).flatten ++ 34 :: rest)
      rw [heq, List.cons_append] at hscan
      rw [hscan]
      show (parseStrAux f ((s'.map escapeCharBytes).flatten ++ 34 :: rest)).map
        (fun p => (c :: p.1, p.2)) = some (c :: s', rest)
      rw [ih rest f (by simpa using Nat.lt_of_succ_lt_succ h)]
      rfl

theorem parseStrBody_roundtrip (s : List Char) (rest : List Nat) :
    parseStrBody ((s.map escapeCharBytes).flatten ++ 34 :: rest) = some (s, rest) := by
  unfold parseStrBody
  apply parseStrAux_roundtrip
  have := escFlatten_length_ge s
  simp only [List.length_append, List.length_cons]
  omega

mutual
/-- Fuel needed by `parseValue` on the serialization of a value. -/
def sizeJ : Json → Nat
  | .null => 1
  | .bool _ => 1
  | .num _ => 1
  | .str _ => 1
  | .arr elems => 1 + sizeA elems
  | .obj ms => 1 + sizeO ms
/-- Fuel needed by `parseElems` on a serialized element list. -/
def sizeA : JsonArr → Nat
  | .nil => 0
  | .cons hd tl => 1 + sizeJ hd + sizeA tl
/-- Fuel needed by `parseMembers` on a serialized member list. -/
def sizeO : JsonObj → Nat
  | .nil => 0
  | .cons _ v tl => 1 + sizeJ v + sizeO tl
end

theorem isJsonWs_false {b : Nat} (h : b ≠ 32 ∧ b ≠ 9 ∧ b ≠ 10 ∧ b ≠ 13) :
    isJsonWs b = false := by
  unfold isJsonWs
  simp only [Bool.or_eq_false_iff, decide_eq_false_iff_not]
  exact ⟨⟨⟨h.1, h.2.1⟩, h.2.2.1⟩, h.2.2.2⟩

theorem stringifyJson_shape (x : Json) :
    ∃ b bs, stringifyJson x = b :: bs ∧ isJsonWs b = false ∧ b ≠ 93 ∧ b ≠ 125 ∧ b ≠ 44 := by
  cases x with
  | null => exact ⟨110, _, rfl, by decide, by decide, by decide, by decide⟩
  | bool b =>
    cases b with
    | true => exact ⟨116, _, rfl, by decide, by decide, by decide, by decide⟩
    | false => exact ⟨102, _, rfl, by decide, by decide, by decide, by decide⟩
  | num n =>
    show ∃ b bs, intBytes n = b :: bs ∧ _
    unfold intBytes
    by_cases hn : n < 0
    · rw [if_pos hn]
      exact ⟨45, _, rfl, by decide, by decide, by decide, by decide⟩
    · rw [if_neg hn]
      cases hnd : natDigits n.natAbs with
      | nil => exact absurd hnd (natDigitsAux_ne_nil (by omega))
      | cons d ds =>
        have hd : 48 ≤ d ∧ d ≤ 57 := natDigits_digits (hnd ▸ List.mem_cons_self d ds)
        exact ⟨d, ds, rfl, isJsonWs_false (by omega), by omega, by omega, by omega⟩
  | str s => exact ⟨34, _, rfl, by decide, by decide, by decide, by decide⟩
  | arr elems => exact ⟨91, _, rfl, by decide, by decide, by decide, by decide⟩
  | obj ms => exact ⟨123, _, rfl, by decide, by decide, by decide, by decide⟩

theorem skipWs_stringify (x : Json) (tail : List Nat) :
    skipWs (stringifyJson x ++ tail) = stringifyJson x ++ tail := by
  obtain ⟨b, bs, heq, hws, _, _, _⟩ := stringifyJson_shape x
  rw [heq, List.cons_append, skipWs_cons_not_ws hws]

theorem isDigitByte_true {d : Nat} (h1 : 48 ≤ d) (h2 : d ≤ 57) : isDigitByte d = true := by
  unfold isDigitByte
  simp only [Bool.and_eq_true, decide_eq_true_eq]
  omega

theorem natDigits_all_digit (m : Nat) : ∀ e ∈ natDigits m, isDigitByte e = true := by
  intro e he
  have := natDigits_digits he
  exact isDigitByte_true this.1 this.2

mutual

theorem parseValue_stringify (x : Json) : ∀ (fuel : Nat) (rest : List Nat),
    sizeJ x ≤ fuel → nonDigitStart rest = true →
    parseValue fuel (stringifyJson x ++ rest) = some (x, rest) := by
  cases x with
  | null =>
    intro fuel rest h hnd
    cases fuel with
    | zero => simp [sizeJ] at h
    | succ f => rfl
  | bool b =>
    intro fuel rest h hnd
    cases fuel with
    | zero => simp [sizeJ] at h
    | succ f => cases b <;> rfl
  | num n =>
    intro fuel rest h hnd
    cases fuel with
    | zero => simp [sizeJ] at h
    | succ f =>
      cases hnd2 : natDigits n.natAbs with
      | nil => exact absurd hnd2 (natDigitsAux_ne_nil (by omega))
      | cons d ds =>
        have hdigits : ∀ e ∈ natDigits n.natAbs, isDigitByte e = true := natDigits_all_digit _
        have htake := takeDigits_append hdigits hnd
        have hdrange : 48 ≤ d ∧ d ≤ 57 := natDigits_digits (hnd2 ▸ List.mem_cons_self d ds)
        by_cases hneg : n < 0
        · have hib : stringifyJson (Json.num n) ++ rest = 45 :: (natDigits n.natAbs ++ rest) := by
            show intBytes n ++ rest = _
            unfold intBytes
            rw [if_pos hneg]
            rfl
          rw [hib]
          show (match takeDigits (natDigits n.natAbs ++ rest) with
            | ([], _) => none
            | (ds, r) => some (Json.num (-(digitsToNat ds : Int)), r)) =
            some (Json.num n, rest)
          rw [htake, hnd2]
          show some (Json.num (-(digitsToNat (d :: ds) : Int)), rest) = some (Json.num n, rest)
          rw [← hnd2, natDigits_val]
          have : -((n.natAbs : Int)) = n := by omega
          rw [this]
        · have hib : stringifyJson (Json.num n) ++ rest = (d :: ds) ++ rest := by
            show intBytes n ++ rest = _
            unfold intBytes
            rw [if_neg hneg, hnd2]
          rw [hib]
          have hws : isJsonWs d = false := isJsonWs_false (by omega)
          have hred : parseValue (f + 1) ((d :: ds) ++ rest) =
              (match takeDigits (d :: (ds ++ rest)) with
                | (ds, r) => some (Json.num (digitsToNat ds : Int), r)) := by
            show parseValue (f + 1) (d :: (ds ++ rest)) = _
            unfold parseValue
            rw [skipWs_cons_not_ws hws]
            dsimp only
            rw [if_neg (by omega : ¬ (d = 110)), if_neg (by omega : ¬ (d = 116)),
              if_neg (by omega : ¬ (d = 102)), if_neg (by omega : ¬ (d = 34)),
              if_neg (by omega : ¬ (d = 45)),
              if_pos (isDigitByte_true hdrange.1 hdrange.2)]
          rw [hred]
          rw [hnd2] at htake
          rw [List.cons_append] at htake
          rw [htake]
          show some (Json.num (digitsToNat (d :: ds) : Int), rest) = some (Json.num n, rest)
          rw [← hnd2, natDigits_val]
          have : ((n.natAbs : Int)) = n := by omega
          rw [this]
  | str s =>
    intro fuel rest h hnd
    cases fuel with
    | zero => simp [sizeJ] at h
    | succ f =>
      have hl : stringifyJson (Json.str s) ++ rest =
          34 :: ((s.map escapeCharBytes).flatten ++ 34 :: rest) := by
        show strLitBytes s ++ rest = _
        unfold strLitBytes
        simp [List.append_assoc]
      rw [hl]
      show (parseStrBody ((s.map escapeCharBytes).flatten ++ 34 :: rest)).map
        (fun p => (Json.str p.1, p.2)) = some (Json.str s, rest)
      rw [parseStrBody_roundtrip]
      rfl
  | arr elems =>
    intro fuel rest h hnd
    cases fuel with
    | zero => simp [sizeJ] at h
    | succ f =>
      cases elems with
      | nil => rfl
      | cons hd tl =>
        have hl : stringifyJson (Json.arr (JsonArr.cons hd tl)) ++ rest =
            91 :: (stringifyArr (JsonArr.cons hd tl) ++ 93 :: rest) := by
          show (91 :: stringifyArr (JsonArr.cons hd tl) ++ [93]) ++ rest = _
          simp [List.append_assoc]
        rw [hl]
        show (match skipWs (stringifyArr (JsonArr.cons hd tl) ++ 93 :: rest) with
          | 93 :: r => some (Json.arr JsonArr.nil, r)
          | _ => (parseElems f (stringifyArr (JsonArr.cons hd tl) ++ 93 :: rest)).map
              (fun p => (Json.arr p.1, p.2))) = some (Json.arr (JsonArr.cons hd tl), rest)
        obtain ⟨b, bs, hhd, hws, h93, _, _⟩ := stringifyJson_shape hd
        obtain ⟨T, hT⟩ : ∃ T, stringifyArr (JsonArr.cons hd tl) ++ 93 :: rest = b :: T := by
          cases tl with
          | nil =>
            refine ⟨bs ++ 93 :: rest, ?_⟩
            show stringifyJson hd ++ 93 :: rest = _
            rw [hhd]
            rfl
          | cons hd2 tl2 =>
            refine ⟨bs ++ (44 :: stringifyArr (JsonArr.cons hd2 tl2) ++ 93 :: rest), ?_⟩
            show (stringifyJson hd ++ 44 :: stringifyArr (JsonArr.cons hd2 tl2)) ++
              93 :: rest = _
            rw [hhd]
            simp [List.append_assoc]
        rw [hT, skipWs_cons_not_ws hws]
        have hsz : sizeA (JsonArr.cons hd tl) ≤ f := by
          have : sizeJ (Json.arr (JsonArr.cons hd tl)) = 1 + sizeA (JsonArr.cons hd tl) := rfl
          omega
        split
        · rename_i r heq
          rw [List.cons.injEq] at heq
          exact absurd heq.1 h93
        · rw [← hT, parseElems_stringify hd tl f rest hsz]
          rfl
  | obj ms =>
    intro fuel rest h hnd
    cases fuel with
    | zero => simp [sizeJ] at h
    | succ f =>
      cases ms with
      | nil => rfl
      | cons k v tl =>
        have hl : stringifyJson (Json.obj (JsonObj.cons k v tl)) ++ rest =
            123 :: (stringifyObj (JsonObj.cons k v tl) ++ 125 :: rest) := by
          show (123 :: stringifyObj (JsonObj.cons k v tl) ++ [125]) ++ rest = _
          simp [List.append_assoc]
        rw [hl]
        show (match skipWs (stringifyObj (JsonObj.cons k v tl) ++ 125 :: rest) with
          | 125 :: r => some (Json.obj JsonObj.nil, r)
          | _ => (parseMembers f (stringifyObj (JsonObj.cons k v tl) ++ 125 :: rest)).map
              (fun p => (Json.obj p.1, p.2))) = some (Json.obj (JsonObj.cons k v tl), rest)
        obtain ⟨T, hT⟩ : ∃ T, stringifyObj (JsonObj.cons k v tl) ++ 125 :: rest = 34 :: T := by
          cases tl with
          | nil =>
            refine ⟨((k.map escapeCharBytes).flatten ++ [34]) ++
              (58 :: stringifyJson v) ++ 125 :: rest, ?_⟩
            show (strLitBytes k ++ 58 :: stringifyJson v) ++ 125 :: rest = _
            unfold strLitBytes
            simp [List.append_assoc]
          | cons k2 v2 tl2 =>
            refine ⟨((k.map escapeCharBytes).flatten ++ [34]) ++
              (58 :: stringifyJson v ++ 44 :: stringifyObj (JsonObj.cons k2 v2 tl2)) ++
              125 :: rest, ?_⟩
            show (strLitBytes k ++ 58 :: stringifyJson v ++
              44 :: stringifyObj (JsonObj.cons k2 v2 tl2)) ++ 125 :: rest = _
            unfold strLitBytes
            simp [List.append_assoc]
        rw [hT, skipWs_cons_not_ws (by decide)]
        have hsz : sizeO (JsonObj.cons k v tl) ≤ f := by
          have : sizeJ (Json.obj (JsonObj.cons k v tl)) = 1 + sizeO (JsonObj.cons k v tl) := rfl
          omega
        split
        · rename_i r heq
          rw [List.cons.injEq] at heq
          exact absurd heq.1 (by omega)
        · rw [← hT, parseMembers_stringify k v tl f rest hsz]
          rfl
termination_by sizeOf x

theorem parseElems_stringify (hd : Json) (tl : JsonArr) :
    ∀ (fuel : Nat) (rest : List Nat), sizeA (JsonArr.cons hd tl) ≤ fuel →
    parseElems fuel (stringifyArr (JsonArr.cons hd tl) ++ 93 :: rest) =
      some (JsonArr.cons hd tl, rest) := by
  cases tl with
  | nil =>
    intro fuel rest h
    cases fuel with
    | zero => simp [sizeA] at h
    | succ f =>
      show (match parseValue f (stringifyJson hd ++ 93 :: rest) with
        | none => none
        | some (v, r) =>
          match skipWs r with
          | 44 :: r2 => (parseElems f r2).map (fun p => (JsonArr.cons v p.1, p.2))
          | 93 :: r2 => some (JsonArr.cons v JsonArr.nil, r2)
          | _ => none) = some (JsonArr.cons hd JsonArr.nil, rest)
      have hszj : sizeJ hd ≤ f := by
        have : sizeA (JsonArr.cons hd JsonArr.nil) = 1 + sizeJ hd + 0 := rfl
        omega
      rw [parseValue_stringify hd f (93 :: rest) hszj rfl]
      rfl
  | cons hd2 tl2 =>
    intro fuel rest h
    cases fuel with
    | zero => simp [sizeA] at h
    | succ f =>
      have hl : stringifyArr (JsonArr.cons hd (JsonArr.cons hd2 tl2)) ++ 93 :: rest =
          stringifyJson hd ++ (44 :: (stringifyArr (JsonArr.cons hd2 tl2) ++ 93 :: rest)) := by
        show (stringifyJson hd ++ 44 :: stringifyArr (JsonArr.cons hd2 tl2)) ++ 93 :: rest = _
        simp [List.append_assoc]
      rw [hl]
      show (match parseValue f (stringifyJson hd ++
          (44 :: (stringifyArr (JsonArr.cons hd2 tl2) ++ 93 :: rest))) with
        | none => none
        | some (v, r) =>
          match skipWs r with
          | 44 :: r2 => (parseElems f r2).map (fun p => (JsonArr.cons v p.1, p.2))
          | 93 :: r2 => some (JsonArr.cons v JsonArr.nil, r2)
          | _ => none) = some (JsonArr.cons hd (JsonArr.cons hd2 tl2), rest)
      have hszj : sizeJ hd ≤ f := by
        have : sizeA (JsonArr.cons hd (JsonArr.cons hd2 tl2)) =
          1 + sizeJ hd + sizeA (JsonArr.cons hd2 tl2) := rfl
        omega
      have hsza : sizeA (JsonArr.cons hd2 tl2) ≤ f := by
        have : sizeA (JsonArr.cons hd (JsonArr.cons hd2 tl2)) =
          1 + sizeJ hd + sizeA (JsonArr.cons hd2 tl2) := rfl
        omega
      rw [parseValue_stringify hd f
        (44 :: (stringifyArr (JsonArr.cons hd2 tl2) ++ 93 :: rest)) hszj rfl]
      show (parseElems f (stringifyArr (JsonArr.cons hd2 tl2) ++ 93 :: rest)).map
        (fun p => (JsonArr.cons hd p.1, p.2)) =
        some (JsonArr.cons hd (JsonArr.cons hd2 tl2), rest)
      rw [parseElems_stringify hd2 tl2 f rest hsza]
      rfl
termination_by 1 + sizeOf hd + sizeOf tl

theorem parseMembers_stringify (k : List Char) (v : Json) (tl : JsonObj) :
    ∀ (fuel : Nat) (rest : List Nat), sizeO (JsonObj.cons k v tl) ≤ fuel →
    parseMembers fuel (stringifyObj (JsonObj.cons k v tl) ++ 125 :: rest) =
      some (JsonObj.cons k v tl, rest) := by
  cases tl with
  | nil =>
    intro fuel rest h
    cases fuel with
    | zero => simp [sizeO] at h
    | succ f =>
      have hl : stringifyObj (JsonObj.cons k v JsonObj.nil) ++ 125 :: rest =
          34 :: ((k.map escapeCharBytes).flatten ++
            34 :: (58 :: (stringifyJson v ++ 125 :: rest))) := by
        show (strLitBytes k ++ 58 :: stringifyJson v) ++ 125 :: rest = _
        unfold strLitBytes
        simp [List.append_assoc]
      rw [hl]
      show (match parseStrBody ((k.map escapeCharBytes).flatten ++
          34 :: (58 :: (stringifyJson v ++ 125 :: rest))) with
        | none => none
        | some (k, r1) =>
          match skipWs r1 with
          | 58 :: r2 =>
            match parseValue f r2 with
            | none => none
            | some (v, r3) =>
              match skipWs r3 with
              | 44 :: r4 => (parseMembers f r4).map (fun p => (JsonObj.cons k v p.1, p.2))
              | 125 :: r4 => some (JsonObj.cons k v JsonObj.nil, r4)
              | _ => none
          | _ => none) = some (JsonObj.cons k v JsonObj.nil, rest)
      rw [parseStrBody_roundtrip]
      have hszj : sizeJ v ≤ f := by
        have : sizeO (JsonObj.cons k v JsonObj.nil) = 1 + sizeJ v + 0 := rfl
        omega
      show (match parseValue f (stringifyJson v ++ 125 :: rest) with
        | none => none
        | some (v2, r3) =>
          match skipWs r3 with
          | 44 :: r4 => (parseMembers f r4).map (fun p => (JsonObj.cons k v2 p.1, p.2))
          | 125 :: r4 => some (JsonObj.cons k v2 JsonObj.nil, r4)
          | _ => none) = some (JsonObj.cons k v JsonObj.nil, rest)
      rw [parseValue_stringify v f (125 :: rest) hszj rfl]
      rfl
  | cons k2 v2 tl2 =>
    intro fuel rest h
    cases fuel with
    | zero => simp [sizeO] at h
    | succ f =>
      have hl : stringifyObj (JsonObj.cons k v (JsonObj.cons k2 v2 tl2)) ++ 125 :: rest =
          34 :: ((k.map escapeCharBytes).flatten ++
            34 :: (58 :: (stringifyJson v ++
              (44 :: (stringifyObj (JsonObj.cons k2 v2 tl2) ++ 125 :: rest))))) := by
        show (strLitBytes k ++ 58 :: stringifyJson v ++
          44 :: stringifyObj (JsonObj.cons k2 v2 tl2)) ++ 125 :: rest = _
        unfold strLitBytes
        simp [List.append_assoc]
      rw [hl]
      show (match parseStrBody ((k.map escapeCharBytes).flatten ++
          34 :: (58 :: (stringifyJson v ++
            (44 :: (stringifyObj (JsonObj.cons k2 v2 tl2) ++ 125 :: rest))))) with
        | none => none
        | some (k, r1) =>
          match skipWs r1 with
          | 58 :: r2 =>
            match parseValue f r2 with
            | none => none
            | some (v, r3) =>
              match skipWs r3 with
              | 44 :: r4 => (parseMembers f r4).map (fun p => (JsonObj.cons k v p.1, p.2))
              | 125 :: r4 => some (JsonObj.cons k v JsonObj.nil, r4)
              | _ => none
          | _ => none) = some (JsonObj.cons k v (JsonObj.cons k2 v2 tl2), rest)
      rw [parseStrBody_roundtrip]
      have hszj : sizeJ v ≤ f := by
        have : sizeO (JsonObj.cons k v (JsonObj.cons k2 v2 tl2)) =
          1 + sizeJ v + sizeO (JsonObj.cons k2 v2 tl2) := rfl
        omega
      have hszo : sizeO (JsonObj.cons k2 v2 tl2) ≤ f := by
        have : sizeO (JsonObj.cons k v (JsonObj.cons k2 v2 tl2)) =
          1 + sizeJ v + sizeO (JsonObj.cons k2 v2 tl2) := rfl
        omega
      show (match parseValue f (stringifyJson v ++
          (44 :: (stringifyObj (JsonObj.cons k2 v2 tl2) ++ 125 :: rest))) with
        | none => none
        | some (v2, r3) =>
          match skipWs r3 with
          | 44 :: r4 => (parseMembers f r4).map (fun p => (JsonObj.cons k v2 p.1, p.2))
          | 125 :: r4 => some (JsonObj.cons k v2 JsonObj.nil, r4)
          | _ => none) = some (JsonObj.cons k v (JsonObj.cons k2 v2 tl2), rest)
      rw [parseValue_stringify v f
        (44 :: (stringifyObj (JsonObj.cons k2 v2 tl2) ++ 125 :: rest)) hszj rfl]
      show (parseMembers f (stringifyObj (JsonObj.cons k2 v2 tl2) ++ 125 :: rest)).map
        (fun p => (JsonObj.cons k v p.1, p.2)) =
        some (JsonObj.cons k v (JsonObj.cons k2 v2 tl2), rest)
      rw [parseMembers_stringify k2 v2 tl2 f rest hszo]
      rfl
termination_by 1 + sizeOf v + sizeOf tl

end

mutual
theorem sizeJ_le (x : Json) : sizeJ x ≤ (stringifyJson x).length := by
    cases x with
    | null => simp [sizeJ, stringifyJson]
    | bool b => cases b <;> simp [sizeJ, stringifyJson]
    | num n =>
      show sizeJ (Json.num n) ≤ (intBytes n).length
      have : (intBytes n).length ≥ 1 := by
        unfold intBytes
        by_cases hn : n < 0
        · rw [if_pos hn]; simp
        · rw [if_neg hn]
          cases hnd : natDigits n.natAbs with
          | nil => exact absurd hnd (natDigitsAux_ne_nil (by omega))
          | cons d ds => simp
      show 1 ≤ (intBytes n).length
      omega
    | str s =>
      show 1 ≤ (strLitBytes s).length
      have := strLitBytes_length_ge2 s
      omega
    | arr elems =>
      show 1 + sizeA elems ≤ (91 :: stringifyArr elems ++ [93]).length
      have := sizeA_le elems
      simp only [List.length_cons, List.length_append]
      omega
    | obj ms =>
      show 1 + sizeO ms ≤ (123 :: stringifyObj ms ++ [125]).length
      have := sizeO_le ms
      simp only [List.length_cons, List.length_append]
      omega
termination_by sizeOf x

theorem sizeA_le (a : JsonArr) : sizeA a ≤ (stringifyArr a).length + 1 := by
    cases a with
    | nil => simp [sizeA]
    | cons hd tl =>
      cases tl with
      | nil =>
        show 1 + sizeJ hd + 0 ≤ (stringifyJson hd).length + 1
        have := sizeJ_le hd
        omega
      | cons hd2 tl2 =>
        show 1 + sizeJ hd + sizeA (JsonArr.cons hd2 tl2) ≤
          (stringifyJson hd ++ 44 :: stringifyArr (JsonArr.cons hd2 tl2)).length + 1
        have h1 := sizeJ_le hd
        have h2 := sizeA_le (JsonArr.cons hd2 tl2)
        simp only [List.length_append, List.length_cons]
        omega
termination_by sizeOf a

theorem sizeO_le (o : JsonObj) : sizeO o ≤ (stringifyObj o).length + 1 := by
    cases o with
    | nil => simp [sizeO]
    | cons k v tl =>
      cases tl with
      | nil =>
        show 1 + sizeJ v + 0 ≤ (strLitBytes k ++ 58 :: stringifyJson v).length + 1
        have h1 := sizeJ_le v
        have h2 := strLitBytes_length_ge2 k
        simp only [List.length_append, List.length_cons]
        omega
      | cons k2 v2 tl2 =>
        show 1 + sizeJ v + sizeO (JsonObj.cons k2 v2 tl2) ≤
          (strLitBytes k ++ 58 :: stringifyJson v ++
            44 :: stringifyObj (JsonObj.cons k2 v2 tl2)).length + 1
        have h1 := sizeJ_le v
        have h2 := sizeO_le (JsonObj.cons k2 v2 tl2)
        simp only [List.length_append, List.length_cons]
        omega
termination_by sizeOf o
end

/-- `JSON.parse` inverts `JSON.stringify` on the modelled JSON
fragment. -/
theorem parseJsonBytes_stringify (x : Json) :
    parseJsonBytes (stringifyJson x) = some x := by
  unfold parseJsonBytes
  have h := parseValue_stringify x ((stringifyJson x).length + 1) []
    (by have := sizeJ_le x; omega) rfl
  rw [List.append_nil] at h
  rw [h]
  rfl

/-- The keys of a JSON object, in order. -/
def objKeys : JsonObj → List (List Char)
  | .nil => []
  | .cons k _ tl => k :: objKeys tl

mutual
/-- Well-formed JSON: every object has pairwise-distinct keys (the only
values a JS object — and hence `JSON.stringify`'s input — can take). -/
def wfJson : Json → Bool
  | .null => true
  | .bool _ => true
  | .num _ => true
  | .str _ => true
  | .arr elems => wfArr elems
  | .obj ms => decide (objKeys ms).Nodup && wfObj ms
/-- All elements well-formed. -/
def wfArr : JsonArr → Bool
  | .nil => true
  | .cons hd tl => wfJson hd && wfArr tl
/-- All member values well-formed. -/
def wfObj : JsonObj → Bool
  | .nil => true
  | .cons _ v tl => wfJson v && wfObj tl
end

/-! ## Stream lemmas for the framer -/

theorem isPrefixOf_append_left {l1 l2 : List Nat} (h : l1.isPrefixOf l2 = true)
    (c : List Nat) : l1.isPrefixOf (l2 ++ c) = true := by
  rw [List.isPrefixOf_iff_prefix] at h ⊢
  exact h.trans (List.prefix_append l2 c)

theorem isPrefixOf_append_of_length_le {sub l : List Nat} (h : sub.length ≤ l.length)
    (c : List Nat) : sub.isPrefixOf (l ++ c) = sub.isPrefixOf l := by
  induction sub generalizing l with
  | nil => simp [List.isPrefixOf]
  | cons s ss ih =>
    cases l with
    | nil => simp at h
    | cons x xs =>
      show (s :: ss).isPrefixOf (x :: (xs ++ c)) = (s :: ss).isPrefixOf (x :: xs)
      show (s == x && ss.isPrefixOf (xs ++ c)) = (s == x && ss.isPrefixOf xs)
      rw [ih (by simpa using Nat.le_of_succ_le_succ h)]

theorem findSep_bound : ∀ {l : List Nat} {i : Nat}, findSep l = some i → i + 4 ≤ l.length := by
  intro l
  induction l with
  | nil => intro i h; simp [findSep] at h
  | cons b rest ih =>
    intro i h
    unfold findSep at h
    cases hp : sepBytes.isPrefixOf (b :: rest) with
    | true =>
      rw [hp, if_pos rfl] at h
      injection h with h
      subst h
      have := (List.isPrefixOf_iff_prefix.mp hp).length_le
      simpa [sepBytes] using this
    | false =>
      rw [hp] at h
      simp only [Bool.false_eq_true, if_false, Option.map_eq_some'] at h
      obtain ⟨j, hj, rfl⟩ := h
      have := ih hj
      simp only [List.length_cons]
      omega

theorem findSep_append_some {l : List Nat} {i : Nat} (c : List Nat)
    (h : findSep l = some i) : findSep (l ++ c) = some i := by
  induction l generalizing i with
  | nil => simp [findSep] at h
  | cons b rest ih =>
    rw [List.cons_append]
    unfold findSep at h ⊢
    cases hp : sepBytes.isPrefixOf (b :: rest) with
    | true =>
      rw [hp, if_pos rfl] at h
      have hp' : sepBytes.isPrefixOf (b :: (rest ++ c)) = true := by
        have := isPrefixOf_append_left hp c
        rwa [List.cons_append] at this
      rw [hp', if_pos rfl]
      exact h
    | false =>
      rw [hp] at h
      simp only [Bool.false_eq_true, if_false, Option.map_eq_some'] at h
      obtain ⟨j, hj, rfl⟩ := h
      have hlen : sepBytes.length ≤ (b :: rest).length := by
        have := findSep_bound hj
        simp only [sepBytes, List.length_cons, List.length_nil]
        omega
      have hp' : sepBytes.isPrefixOf (b :: (rest ++ c)) = sepBytes.isPrefixOf (b :: rest) := by
        have := isPrefixOf_append_of_length_le hlen c
        rwa [List.cons_append] at this
      rw [hp', hp]
      simp only [Bool.false_eq_true, if_false, ih hj]
      rfl

theorem findSep_header {hd : List Nat} (h13 : ∀ b ∈ hd, b ≠ 13) (tl : List Nat) :
    findSep (hd ++ 13 :: 10 :: 13 :: 10 :: tl) = some hd.length := by
  induction hd with
  | nil =>
    show findSep (13 :: 10 :: 13 :: 10 :: tl) = some 0
    unfold findSep
    rw [if_pos (by
      rw [List.isPrefixOf_iff_prefix]
      exact ⟨tl, rfl⟩)]
  | cons b hd' ih =>
    show findSep (b :: (hd' ++ 13 :: 10 :: 13 :: 10 :: tl)) = some (hd'.length + 1)
    unfold findSep
    have hb : b ≠ 13 := h13 b (List.mem_cons_self b hd')
    rw [if_neg (by
      intro hc
      rw [List.isPrefixOf_iff_prefix] at hc
      obtain ⟨t, ht⟩ := hc
      rw [show sepBytes ++ t = 13 :: (10 :: 13 :: 10 :: t) from rfl] at ht
      rw [List.cons.injEq] at ht
      exact hb ht.1.symm)]
    rw [ih (fun e he => h13 e (List.mem_cons_of_mem b he))]
    rfl

theorem parserStep_shrinks {buf buf' : List Nat} {e : Option Json}
    (hstep : parserStep buf = some (buf', e)) : buf'.length < buf.length := by
  unfold parserStep at hstep
  cases hfs : findSep buf with
  | none => rw [hfs] at hstep; exact Option.noConfusion hstep
  | some h =>
    have hb := findSep_bound hfs
    rw [hfs] at hstep
    dsimp only at hstep
    cases hm : matchContentLength (buf.take h) with
    | none =>
      rw [hm] at hstep
      dsimp only at hstep
      injection hstep with hx
      rw [Prod.mk.injEq] at hx
      rw [← hx.1, List.length_drop]
      omega
    | some len =>
      rw [hm] at hstep
      dsimp only at hstep
      by_cases hlt : buf.length < h + 4 + len
      · rw [if_pos hlt] at hstep; exact Option.noConfusion hstep
      · rw [if_neg hlt] at hstep
        injection hstep with hx
        rw [Prod.mk.injEq] at hx
        rw [← hx.1, List.length_drop]
        omega

theorem parserStep_append {buf buf' : List Nat} {e : Option Json} (c : List Nat)
    (hstep : parserStep buf = some (buf', e)) :
    parserStep (buf ++ c) = some (buf' ++ c, e) := by
  unfold parserStep at hstep ⊢
  cases hfs : findSep buf with
  | none => rw [hfs] at hstep; exact Option.noConfusion hstep
  | some h =>
    have hb := findSep_bound hfs
    rw [hfs] at hstep
    dsimp only at hstep
    rw [findSep_append_some c hfs]
    dsimp only
    rw [List.take_append_of_le_length (by omega)]
    cases hm : matchContentLength (buf.take h) with
    | none =>
      rw [hm] at hstep
      dsimp only at hstep
      dsimp only
      injection hstep with hx
      rw [Prod.mk.injEq] at hx
      rw [List.drop_append_of_le_length (by omega), hx.1, hx.2]
    | some len =>
      rw [hm] at hstep
      dsimp only at hstep
      dsimp only
      by_cases hlt : buf.length < h + 4 + len
      · rw [if_pos hlt] at hstep; exact Option.noConfusion hstep
      · rw [if_neg hlt] at hstep
        injection hstep with hx
        rw [Prod.mk.injEq] at hx
        rw [if_neg (by
          rw [List.length_append]
          omega : ¬ ((buf ++ c).length < h + 4 + len))]
        rw [List.drop_append_of_le_length (by omega : h + 4 + len ≤ buf.length),
          List.drop_append_of_le_length (by omega : h + 4 ≤ buf.length)]
        rw [List.take_append_of_le_length (by rw [List.length_drop]; omega)]
        rw [hx.1, hx.2]

theorem processBufFuel_congr : ∀ (f1 f2 : Nat) (buf : List Nat),
    buf.length < f1 → buf.length < f2 → processBufFuel f1 buf = processBufFuel f2 buf := by
  intro f1
  induction f1 with
  | zero => intro f2 buf h1 h2; omega
  | succ g ih =>
    intro f2 buf h1 h2
    cases f2 with
    | zero => omega
    | succ g2 =>
      show (match parserStep buf with
        | none => (buf, [])
        | some (buf', e) =>
          ((processBufFuel g buf').1, e.toList ++ (processBufFuel g buf').2)) =
        (match parserStep buf with
        | none => (buf, [])
        | some (buf', e) =>
          ((processBufFuel g2 buf').1, e.toList ++ (processBufFuel g2 buf').2))
      cases hs : parserStep buf with
      | none => rfl
      | some p =>
        obtain ⟨buf', e⟩ := p
        have hlt := parserStep_shrinks hs
        dsimp only
        rw [ih g2 buf' (by omega) (by omega)]

theorem processBuffer_eq (buf : List Nat) :
    processBuffer buf = match parserStep buf with
      | none => (buf, [])
      | some (buf', e) =>
        ((processBuffer buf').1, e.toList ++ (processBuffer buf').2) := by
  show processBufFuel (buf.length + 1) buf = _
  show (match parserStep buf with
    | none => (buf, [])
    | some (buf', e) =>
      ((processBufFuel buf.length buf').1, e.toList ++ (processBufFuel buf.length buf').2)) = _
  cases hs : parserStep buf with
  | none => rfl
  | some p =>
    obtain ⟨buf', e⟩ := p
    have hlt := parserStep_shrinks hs
    dsimp only
    rw [processBufFuel_congr buf.length (buf'.length + 1) buf' (by omega) (by omega)]
    rfl

theorem parserStep_quiescent (buf : List Nat) : parserStep (processBuffer buf).1 = none := by
  rw [processBuffer_eq]
  cases hs : parserStep buf with
  | none => exact hs
  | some p =>
    obtain ⟨buf', e⟩ := p
    exact parserStep_quiescent buf'
termination_by buf.length
decreasing_by exact parserStep_shrinks hs

theorem processBuffer_append (buf c : List Nat) :
    processBuffer (buf ++ c) =
      ((processBuffer ((processBuffer buf).1 ++ c)).1,
       (processBuffer buf).2 ++ (processBuffer ((processBuffer buf).1 ++ c)).2) := by
  cases hs : parserStep buf with
  | none =>
    have hb : processBuffer buf = (buf, []) := by rw [processBuffer_eq, hs]
    rw [hb]
    simp
  | some p =>
    obtain ⟨buf', e⟩ := p
    have hb : processBuffer buf =
        ((processBuffer buf').1, e.toList ++ (processBuffer buf').2) := by
      rw [processBuffer_eq, hs]
    have hbc : processBuffer (buf ++ c) =
        ((processBuffer (buf' ++ c)).1, e.toList ++ (processBuffer (buf' ++ c)).2) := by
      rw [processBuffer_eq, parserStep_append c hs]
    have hih := processBuffer_append buf' c
    rw [hbc, hih, hb]
    simp [List.append_assoc]
termination_by buf.length
decreasing_by exact parserStep_shrinks hs

theorem foldFeed_eq : ∀ (chunks : List (List Nat)) (q : List Nat) (out : List Json),
    parserStep q = none →
    chunks.foldl (fun acc chunk =>
        ((feed acc.1 chunk).1, acc.2 ++ (feed acc.1 chunk).2)) (q, out) =
      ((processBuffer (q ++ chunks.flatten)).1,
       out ++ (processBuffer (q ++ chunks.flatten)).2) := by
  intro chunks
  induction chunks with
  | nil =>
    intro q out hq
    have hb : processBuffer q = (q, []) := by rw [processBuffer_eq, hq]
    simp [hb]
  | cons ch chs ih =>
    intro q out hq
    show List.foldl _ ((feed q ch).1, out ++ (feed q ch).2) chs = _
    have hquiet : parserStep (feed q ch).1 = none := parserStep_quiescent (q ++ ch)
    rw [ih (feed q ch).1 (out ++ (feed q ch).2) hquiet]
    show ((processBuffer ((processBuffer (q ++ ch)).1 ++ chs.flatten)).1,
      (out ++ (processBuffer (q ++ ch)).2) ++
        (processBuffer ((processBuffer (q ++ ch)).1 ++ chs.flatten)).2) = _
    have happ := processBuffer_append (q ++ ch) chs.flatten
    rw [show q ++ (List.cons ch chs).flatten = (q ++ ch) ++ chs.flatten from by
      simp [List.append_assoc]]
    rw [happ]
    simp [List.append_assoc]

theorem take_append_len {l1 : List Nat} (l2 : List Nat) {k : Nat} (h : l1.length = k) :
    (l1 ++ l2).take k = l1 := by
  subst h
  induction l1 with
  | nil => rfl
  | cons a t ih =>
    show a :: ((t ++ l2).take t.length) = a :: t
    rw [ih]

theorem drop_append_len {l1 : List Nat} (l2 : List Nat) {k : Nat} (h : l1.length = k) :
    (l1 ++ l2).drop k = l2 := by
  subst h
  induction l1 with
  | nil => rfl
  | cons a t ih =>
    show (t ++ l2).drop t.length = l2
    exact ih

theorem skipRegexWs_digits {l : List Nat} (hl : ∀ d ∈ l, isDigitByte d = true) :
    skipRegexWs l = l := by
  cases l with
  | nil => rfl
  | cons d ds =>
    have hd := hl d (List.mem_cons_self d ds)
    have hbounds : 48 ≤ d ∧ d ≤ 57 := by
      simp only [isDigitByte, Bool.and_eq_true, decide_eq_true_eq] at hd
      exact hd
    have hws : isRegexWs d = false := by
      simp only [isRegexWs, Bool.or_eq_false_iff, decide_eq_false_iff_not]
      omega
    unfold skipRegexWs
    rw [if_neg (by rw [hws]; exact Bool.false_ne_true)]

theorem matchCLAt_clHeader (n : Nat) : matchCLAt (clHeaderBytes n) = some n := by
  have hstrip : stripToken clToken (clHeaderBytes n) = some (32 :: natDigits n) := rfl
  have hskip : skipRegexWs (32 :: natDigits n) = natDigits n := by
    show skipRegexWs (natDigits n) = natDigits n
    exact skipRegexWs_digits (natDigits_all_digit n)
  have htd : takeDigits (natDigits n) = (natDigits n, []) := by
    have := takeDigits_append (natDigits_all_digit n) (rfl : nonDigitStart [] = true)
    simpa using this
  unfold matchCLAt
  rw [hstrip]
  dsimp only
  rw [hskip, htd]
  cases hnd : natDigits n with
  | nil => exact absurd hnd (natDigitsAux_ne_nil (by omega))
  | cons d ds =>
    dsimp only
    rw [← hnd, natDigits_val]

theorem matchContentLength_clHeader (n : Nat) :
    matchContentLength (clHeaderBytes n) = some n := by
  show matchContentLength
    (67 :: ([111, 110, 116, 101, 110, 116, 45, 76, 101, 110, 103, 116, 104, 58, 32] ++
      natDigits n)) = some n
  unfold matchContentLength
  rw [show matchCLAt
    (67 :: ([111, 110, 116, 101, 110, 116, 45, 76, 101, 110, 103, 116, 104, 58, 32] ++
      natDigits n)) = some n from matchCLAt_clHeader n]

theorem clHeaderBytes_ne_13 (n : Nat) : ∀ b ∈ clHeaderBytes n, b ≠ 13 := by
  intro b hb
  unfold clHeaderBytes at hb
  rcases List.mem_append.mp hb with h | h
  · fin_cases h <;> decide
  · have := natDigits_digits h
    omega

theorem parserStep_frame (body tail : List Nat) :
    parserStep (frameOf body ++ tail) = some (tail, parseJsonBytes body) := by
  have hB : frameOf body ++ tail =
      clHeaderBytes body.length ++ (13 :: 10 :: 13 :: 10 :: (body ++ tail)) := by
    simp [frameOf, sepBytes, List.append_assoc]
  rw [hB]
  unfold parserStep
  rw [findSep_header (clHeaderBytes_ne_13 body.length) (body ++ tail)]
  dsimp only
  rw [take_append_len _ rfl, matchContentLength_clHeader]
  dsimp only
  rw [if_neg (by simp [List.length_append]; omega)]
  have hdrop4 : (clHeaderBytes body.length ++
      (13 :: 10 :: 13 :: 10 :: (body ++ tail))).drop ((clHeaderBytes body.length).length + 4) =
      body ++ tail := by
    rw [show (13 : Nat) :: 10 :: 13 :: 10 :: (body ++ tail) =
      [13, 10, 13, 10] ++ (body ++ tail) from rfl, ← List.append_assoc]
    exact drop_append_len _ (by simp)
  have hdropAll : (clHeaderBytes body.length ++
      (13 :: 10 :: 13 :: 10 :: (body ++ tail))).drop
        ((clHeaderBytes body.length).length + 4 + body.length) = tail := by
    rw [show (13 : Nat) :: 10 :: 13 :: 10 :: (body ++ tail) =
      ([13, 10, 13, 10] ++ body) ++ tail from by simp, ← List.append_assoc]
    exact drop_append_len _ (by simp [List.length_append]; omega)
  rw [hdropAll, hdrop4, take_append_len tail rfl]

theorem processBuffer_frame (body tail : List Nat) :
    processBuffer (frameOf body ++ tail) =
      ((processBuffer tail).1, (parseJsonBytes body).toList ++ (processBuffer tail).2) := by
  rw [processBuffer_eq, parserStep_frame]

theorem processBuffer_frames (js : List Json) :
    processBuffer ((js.map encodeFrame).flatten) = ([], js) := by
  induction js with
  | nil => rfl
  | cons x rest ih =>
    show processBuffer (encodeFrame x ++ (rest.map encodeFrame).flatten) = ([], x :: rest)
    rw [show encodeFrame x = frameOf (stringifyJson x) from rfl]
    rw [processBuffer_frame, ih, parseJsonBytes_stringify]
    rfl

/-- C2: for every sequence of (well-formed, i.e. duplicate-key-free — the
only values `JSON.stringify` is ever handed) JSON values and every way of
chunking the concatenation of their `JsonRpcFramer.encode` frames,
feeding the chunks in order to a fresh `JsonRpcParser` leaves an empty
buffer and emits exactly those values, in order, with no duplicates. -/
theorem framer_roundtrip_chunked (js : List Json) (chunks : List (List Nat))
    (hwf : ∀ x ∈ js, wfJson x = true)
    (hchunks : chunks.flatten = (js.map encodeFrame).flatten) :
    feedAll chunks = ([], js) := by
  have hq : parserStep ([] : List Nat) = none := rfl
  unfold feedAll
  rw [foldFeed_eq chunks [] [] hq, List.nil_append, hchunks, processBuffer_frames]
  rfl

/-- C2 witness: the two frames encoding `7` and `null`, split at an
offset that cuts the first frame's header in half, round-trip. -/
theorem framer_roundtrip_chunked_witness :
    feedAll [(([Json.num 7, Json.null].map encodeFrame).flatten).take 5,
             (([Json.num 7, Json.null].map encodeFrame).flatten).drop 5] =
      ([], [Json.num 7, Json.null]) :=
  framer_roundtrip_chunked [Json.num 7, Json.null]
    [(([Json.num 7, Json.null].map encodeFrame).flatten).take 5,
     (([Json.num 7, Json.null].map encodeFrame).flatten).drop 5]
    (by decide) (by decide)

/-- C8: `JsonRpcParser.feed` recovery. (1) A CRLFCRLF-terminated header
block with no parseable `Content-Length` is discarded through the
separator and parsing continues on the rest of the stream; (2) a complete
frame whose body is not valid JSON emits nothing and parsing continues;
(3) an incomplete frame (fewer than `Content-Length` body bytes) emits
nothing and stays buffered. -/
theorem jsonrpc_parser_recovery :
    (∀ hd tail : List Nat, (∀ b ∈ hd, b ≠ 13) → matchContentLength hd = none →
      processBuffer (hd ++ 13 :: 10 :: 13 :: 10 :: tail) = processBuffer tail) ∧
    (∀ body tail : List Nat, parseJsonBytes body = none →
      processBuffer (frameOf body ++ tail) = processBuffer tail) ∧
    (∀ (n : Nat) (trunc : List Nat), trunc.length < n →
      processBuffer (clHeaderBytes n ++ 13 :: 10 :: 13 :: 10 :: trunc) =
        (clHeaderBytes n ++ 13 :: 10 :: 13 :: 10 :: trunc, [])) := by
  refine ⟨?_, ?_, ?_⟩
  · intro hd tail h13 hm
    have hstep : parserStep (hd ++ 13 :: 10 :: 13 :: 10 :: tail) = some (tail, none) := by
      unfold parserStep
      rw [findSep_header h13 tail]
      dsimp only
      rw [take_append_len _ rfl, hm]
      dsimp only
      rw [show (13 : Nat) :: 10 :: 13 :: 10 :: tail = [13, 10, 13, 10] ++ tail from rfl,
        ← List.append_assoc, drop_append_len _ (by simp)]
    rw [processBuffer_eq, hstep]
    dsimp only
    simp [Option.toList]
  · intro body tail hpb
    rw [processBuffer_frame, hpb]
    rfl
  · intro n trunc hlt
    have hstep : parserStep (clHeaderBytes n ++ 13 :: 10 :: 13 :: 10 :: trunc) = none := by
      unfold parserStep
      rw [findSep_header (clHeaderBytes_ne_13 n) trunc]
      dsimp only
      rw [take_append_len _ rfl, matchContentLength_clHeader]
      dsimp only
      rw [if_pos (by simp [List.length_append]; omega)]
    rw [processBuffer_eq, hstep]

/-- C8 witness: a stream holding a header block with no Content-Length,
then a complete frame whose body `oops` is not JSON, then an incomplete
frame announcing 5 body bytes but carrying 1: nothing is emitted, the bad
header and the bad-JSON frame are discarded, and the incomplete frame
stays buffered. -/
theorem jsonrpc_parser_recovery_witness :
    processBuffer ([88] ++ 13 :: 10 :: 13 :: 10 ::
        (frameOf [111, 111, 112, 115] ++
          (clHeaderBytes 5 ++ 13 :: 10 :: 13 :: 10 :: [49]))) =
      (clHeaderBytes 5 ++ 13 :: 10 :: 13 :: 10 :: [49], []) := by
  have h := jsonrpc_parser_recovery
  rw [h.1 [88] (frameOf [111, 111, 112, 115] ++
      (clHeaderBytes 5 ++ 13 :: 10 :: 13 :: 10 :: [49])) (by decide) (by decide)]
  rw [h.2.1 [111, 111, 112, 115] (clHeaderBytes 5 ++ 13 :: 10 :: 13 :: 10 :: [49]) rfl]
  exact h.2.2 5 [49] (by decide)

/-! ## MCPHandler.handleMCPRequest (src/src/mcp-handler.ts) -/

/-- `MCPJSONRPCError` (`types.ts`): a JSON-RPC error object. -/
structure MCPJSONRPCError where
  code : Int
  message : String
  deriving Repr, DecidableEq

/-- `MCPErrorResponses.createError`. -/
def createError (code : Int) (message : String) : MCPJSONRPCError :=
  ⟨code, message⟩

/-- `MCPErrorResponses.invalidParams`: code is `MCPErrorCodes.INVALID_PARAMS = -32602`. -/
def invalidParams (message : String) : MCPJSONRPCError :=
  createError (-32602) message

/-- `MCPErrorResponses.methodNotFound`: code is `MCPErrorCodes.METHOD_NOT_FOUND = -32601`. -/
def methodNotFound (method : String) : MCPJSONRPCError :=
  createError (-32601) ("Method not found: " ++ method)

/-- The JSON-RPC error envelope built by `createMCPErrorResponse`. -/
structure MCPErrorEnvelope where
  jsonrpc : String
  id : Json
  error : MCPJSONRPCError
  deriving Repr

/-- `createMCPErrorResponse(id, error)` (error-responses module). -/
def createMCPErrorResponse (id : Json) (error : MCPJSONRPCError) : MCPErrorEnvelope :=
  ⟨"2.0", id, error⟩

/-- Property read on a parsed-JSON object: with duplicate keys the later
assignment wins when `JSON.parse` builds the object, so the last
occurrence is returned. -/
def jsonObjGet : JsonObj → List Char → Option Json
  | .nil, _ => none
  | .cons k v tl, key =>
    match jsonObjGet tl key with
    | some r => some r
    | none => if k = key then some v else none

/-- Property read `value.key` on an arbitrary parsed value: `undefined`
(`none`) unless the value is an object with that key. -/
def jsonGet (j : Json) (key : List Char) : Option Json :=
  match j with
  | .obj ms => jsonObjGet ms key
  | _ => none

/-- `request.id ?? null`: nullish coalescing (absent or `null` become `null`). -/
def idCoalesce (req : Json) : Json :=
  match jsonGet req ("id".data) with
  | some Json.null => Json.null
  | some v => v
  | none => Json.null

/-- JS truthiness of a parsed JSON value (`NaN`/`undefined` cannot occur). -/
def jsTruthyJson : Json → Bool
  | .null => false
  | .bool b => b
  | .num n => if n = 0 then false else true
  | .str s => !s.isEmpty
  | .arr _ => true
  | .obj _ => true

/-- `request.id || null`: falsy ids (`null`, `false`, `0`, `""`) become `null`. -/
def idOr (req : Json) : Json :=
  match jsonGet req ("id".data) with
  | some v => if jsTruthyJson v then v else Json.null
  | none => Json.null

mutual
/-- JS string conversion of a parsed JSON value, as a template literal
performs it. -/
def jsDisplay : Json → String
  | .null => "null"
  | .bool true => "true"
  | .bool false => "false"
  | .num n => if n < 0 then "-" ++ Nat.repr n.natAbs else Nat.repr n.natAbs
  | .str s => String.mk s
  | .arr elems => jsDisplayArr elems
  | .obj _ => "[object Object]"
-- Array toString: elements joined by ",", with null elements rendered empty.
def jsDisplayArr : JsonArr → String
  | .nil => ""
  | .cons Json.null .nil => ""
  | .cons v .nil => jsDisplay v
  | .cons Json.null tl => "," ++ jsDisplayArr tl
  | .cons v tl => jsDisplay v ++ "," ++ jsDisplayArr tl
end

/-- Does an `Option Json` hold exactly the given string? (the `===`
comparisons of `handleMCPRequest` against string literals). -/
def isJsonStrEq (o : Option Json) (s : String) : Bool :=
  match o with
  | some (Json.str t) => t == s.data
  | _ => false

/-- The outcome of `MCPHandler.handleMCPRequest`: either a JSON error
response with an HTTP status, or delegation to the named sub-handler. -/
inductive HandlerOutcome where
  | errorResponse (status : Nat) (envelope : MCPErrorEnvelope) : HandlerOutcome
  | routed (method : String) : HandlerOutcome
  deriving Repr

/-- `MCPHandler.handleMCPRequest` on a raw request body. A body that is
not valid JSON makes `c.req.json()` throw, and a body parsing to `null`
makes the `request.jsonrpc` property access throw; both land in the
`catch` block, which responds 400 with `invalidParams('Invalid JSON
format')` and a `null` id. Otherwise the JSON-RPC version is checked and
the method is dispatched. -/
def handleMCPRequest (body : List Nat) : HandlerOutcome :=
  match parseJsonBytes body with
  | none =>
    HandlerOutcome.errorResponse 400
      (createMCPErrorResponse Json.null (invalidParams "Invalid JSON format"))
  | some Json.null =>
    HandlerOutcome.errorResponse 400
      (createMCPErrorResponse Json.null (invalidParams "Invalid JSON format"))
  | some req =>
    if !(isJsonStrEq (jsonGet req ("jsonrpc".data)) "2.0") then
      HandlerOutcome.errorResponse 400
        (createMCPErrorResponse (idCoalesce req)
          (invalidParams "Invalid JSON-RPC version. Expected \"2.0\""))
    else
      match jsonGet req ("method".data) with
      | some (Json.str m) =>
        if String.mk m = "initialize" then HandlerOutcome.routed "initialize"
        else if String.mk m = "notifications/initialized" then
          HandlerOutcome.routed "notifications/initialized"
        else if String.mk m = "capabilities/list" then HandlerOutcome.routed "capabilities/list"
        else if String.mk m = "tools/list" then HandlerOutcome.routed "tools/list"
        else if String.mk m = "resources/list" then HandlerOutcome.routed "resources/list"
        else if String.mk m = "prompts/list" then HandlerOutcome.routed "prompts/list"
        else HandlerOutcome.errorResponse 404
          (createMCPErrorResponse (idOr req) (methodNotFound (String.mk m)))
      | some v => HandlerOutcome.errorResponse 404
          (createMCPErrorResponse (idOr req) (methodNotFound (jsDisplay v)))
      | none => HandlerOutcome.errorResponse 404
          (createMCPErrorResponse (idOr req) (methodNotFound "undefined"))

/-- C7 counterexample: for the non-JSON body `oops` the gateway does
respond 400 with a `null` id, but the error code is `-32602`
(`INVALID_PARAMS`, message `Invalid JSON format`), not the claimed
`-32700` (`PARSE_ERROR`). -/
theorem mcpHandler_parse_error_code_counterexample :
    handleMCPRequest [111, 111, 112, 115] =
      HandlerOutcome.errorResponse 400
        (createMCPErrorResponse Json.null (invalidParams "Invalid JSON format")) ∧
    (invalidParams "Invalid JSON format").code = -32602 ∧
    ((-32602 : Int) ≠ -32700) :=
  ⟨rfl, rfl, by decide⟩

/-- C7 (amended): for every request body that is not valid JSON, the
gateway responds with HTTP status 400 and a JSON-RPC error envelope whose
id is `null`, whose error code is `-32602` (`INVALID_PARAMS`), and whose
message is `Invalid JSON format`. -/
theorem mcpHandler_invalid_json_response (body : List Nat)
    (h : parseJsonBytes body = none) :
    handleMCPRequest body =
      HandlerOutcome.errorResponse 400
        (createMCPErrorResponse Json.null (invalidParams "Invalid JSON format")) ∧
    (createMCPErrorResponse Json.null (invalidParams "Invalid JSON format")).id = Json.null ∧
    (createMCPErrorResponse Json.null (invalidParams "Invalid JSON format")).error.code =
      -32602 ∧
    (createMCPErrorResponse Json.null (invalidParams "Invalid JSON format")).error.message =
      "Invalid JSON format" := by
  refine ⟨?_, rfl, rfl, rfl⟩
  unfold handleMCPRequest
  rw [h]

/-- C7 witness: the one-byte body `{` is not valid JSON and draws the 400
/ id null / -32602 / `Invalid JSON format` response. -/
theorem mcpHandler_invalid_json_response_witness :
    parseJsonBytes [123] = none ∧
    (handleMCPRequest [123] =
      HandlerOutcome.errorResponse 400
        (createMCPErrorResponse Json.null (invalidParams "Invalid JSON format")) ∧
    (createMCPErrorResponse Json.null (invalidParams "Invalid JSON format")).id = Json.null ∧
    (createMCPErrorResponse Json.null (invalidParams "Invalid JSON format")).error.code =
      -32602 ∧
    (createMCPErrorResponse Json.null (invalidParams "Invalid JSON format")).error.message =
      "Invalid JSON format") :=
  ⟨rfl, mcpHandler_invalid_json_response [123] rfl⟩

end MCPService
